import Mathlib

/-!
Shallow embedding of the crypto-strat-lab trading engine
(`src/trading_bot/{base_strategy,indicators,strategies,backtest,optimizer}.py`)
over exact rational arithmetic, together with theorems settling the frozen
claims about the natural-language specification.

Modelling conventions:
* Python floats are modelled as exact rationals `ℚ`; a pandas cell that may be
  NaN is modelled as `Option ℚ` (`none` = NaN), and comparisons against NaN are
  `false`, as in IEEE/pandas.
* Timestamps are natural numbers counting seconds (only differences are used,
  in `metrics`, via `/86400`).
* Quantities that are genuinely irrational in the source (`sqrt`, `**` with a
  fractional exponent, used only inside `metrics`/`score_metrics`) live in `ℝ`.
-/

namespace TradingBot

/-- NaN-able rational: one pandas Series cell (`none` is NaN). -/
abbrev NQ := Option ℚ

/-- Comparison `a < b` on cells; any NaN makes the comparison false (pandas/IEEE). -/
def nqLt : NQ → NQ → Bool
  | some a, some b => decide (a < b)
  | _, _ => false

/-- Comparison `a ≤ b` on cells; any NaN makes the comparison false (pandas/IEEE). -/
def nqLe : NQ → NQ → Bool
  | some a, some b => decide (a ≤ b)
  | _, _ => false

/-- Cell subtraction, propagating NaN. -/
def nqSub : NQ → NQ → NQ
  | some a, some b => some (a - b)
  | _, _ => none

/-- Last element of a Series (`.iloc[-1]`) seen as a cell: out of range is NaN. -/
def ilocLast (xs : List NQ) : NQ := (xs.getLast?).getD none

/-- Second-to-last element of a Series (`.iloc[-2]`) seen as a cell. -/
def ilocPrev (xs : List NQ) : NQ := (xs.dropLast.getLast?).getD none

/-- Last element of an all-valid Series of rationals (used after length guards). -/
def qLast (xs : List ℚ) : ℚ := xs.getLast?.getD 0

/-- Second-to-last element of an all-valid Series of rationals. -/
def qPrev (xs : List ℚ) : ℚ := xs.dropLast.getLast?.getD 0

/-! ### Data model: bars, trades, ledger (`base_strategy.py`) -/

/-- One OHLC bar as consumed by the core: timestamp, `high`, `low`, `close`.
The `open`/`volume` columns are never read by the engine; `close` may be NaN
(the only invalidity the runner guards against). -/
structure Bar where
  ts : ℕ
  high : ℚ
  low : ℚ
  close : NQ
  deriving DecidableEq, Repr

/-- The side of a trade, `"BUY"` or `"SELL"` in the source. -/
inductive Side where
  | buy
  | sell
  deriving DecidableEq, Repr

/-- One entry of `self.trades`: `(ts, side, price, qty, sid)`. -/
structure Trade where
  ts : ℕ
  side : Side
  price : ℚ
  qty : ℚ
  sid : ℕ
  deriving DecidableEq, Repr

/-- The mutable ledger fields of `StrategyBase` (position, cash, trade log,
equity series).  `reset` initializes them, see `Ledger.reset`. -/
structure Ledger where
  position : ℚ
  cash : ℚ
  trades : List Trade
  equity : List (ℕ × ℚ)
  deriving DecidableEq, Repr

/-- `StrategyBase.reset`: position 0, cash = start_cash, empty logs. -/
def Ledger.reset (start_cash : ℚ) : Ledger :=
  { position := 0, cash := start_cash, trades := [], equity := [] }

/-- The dust threshold `1e-9` of `StrategyBase.step`. -/
def eps : ℚ := 1 / 10 ^ 9

/-- The ledger part of `StrategyBase.step` (lines 74-90 of
`base_strategy.py`), executing an already-computed signal `sig`:
* `sig = BUY` and `position == 0`: `qty = cash / (price*(1+fee))`; if
  `qty > 1e-9`, debit `qty*price*(1+fee)`, set `position = qty`, log the trade;
* `sig = SELL` and `position > 0`: credit `position*price*(1-fee)`, zero the
  position, log the trade;
* in every case append the equity sample `(ts, cash + position*price)`. -/
def stepExec (fee : ℚ) (sid : ℕ) (L : Ledger) (ts : ℕ) (price : ℚ)
    (sig : Option Side) : Ledger :=
  let L1 :=
    if sig = some Side.buy ∧ L.position = 0 then
      let qty := L.cash / (price * (1 + fee))
      if eps < qty then
        { L with cash := L.cash - qty * price * (1 + fee),
                 position := qty,
                 trades := L.trades ++ [⟨ts, Side.buy, price, qty, sid⟩] }
      else L
    else if sig = some Side.sell ∧ 0 < L.position then
      { L with cash := L.cash + L.position * price * (1 - fee),
               position := 0,
               trades := L.trades ++ [⟨ts, Side.sell, price, L.position, sid⟩] }
    else L
  { L1 with equity := L1.equity ++ [(ts, L1.cash + L1.position * price)] }

/-- Run a sequence of `(ts, price, signal)` ledger steps from a fresh reset. -/
def runLedger (fee : ℚ) (sid : ℕ) (start_cash : ℚ)
    (inputs : List (ℕ × ℚ × Option Side)) : Ledger :=
  inputs.foldl (fun L i => stepExec fee sid L i.1 i.2.1 i.2.2) (Ledger.reset start_cash)

/-! ### Metrics (`StrategyBase.metrics`) -/

/-- The maximum-drawdown loop of `metrics` (lines 126-131): running peak
starts at `vals[0]`, and for each value, if the peak is positive the drawdown
`(peak - v)/peak` is folded into the maximum. -/
def ddGo : ℚ → ℚ → List ℚ → ℚ
  | _, dd, [] => dd
  | peak, dd, v :: r =>
    let peak' := max peak v
    if 0 < peak' then ddGo peak' (max dd ((peak' - v) / peak')) r
    else ddGo peak' dd r

/-- Maximum drawdown of an equity-value series (`metrics`, lines 126-131).
Empty series never reaches this code path (metrics returns `{}` first). -/
def maxDD : List ℚ → ℚ
  | [] => 0
  | v :: r => ddGo v 0 (v :: r)

/-- The win/loss pairing loop of `metrics` (lines 138-147): trades are paired
two at a time `(trades[i], trades[i+1])` assuming BUY,SELL alternation; a pair
with `(sell.price - buy.price) * buy.qty > 0` is a win, otherwise a loss.  A
trailing unpaired trade is dropped (`if i + 1 >= len(self.trades): break`). -/
def pairWL : List Trade → ℕ × ℕ
  | b :: s :: rest =>
    let wl := pairWL rest
    if 0 < (s.price - b.price) * b.qty then (wl.1 + 1, wl.2) else (wl.1, wl.2 + 1)
  | _ => (0, 0)

/-- The win rate `wins / max(1, wins + losses)` (line 148). -/
def winrateOf (trades : List Trade) : ℚ :=
  let wl := pairWL trades
  (wl.1 : ℚ) / max 1 (wl.1 + wl.2)

/-- Per-sample simple returns: `pct_change(fill_method=None).fillna(0.0)`,
so the first return is 0 and return `i` is `v_i / v_{i-1} - 1`.  (The source
works in floats where a zero previous value yields ±inf; equity values in this
exact-arithmetic model are the rational `v_i / v_{i-1} - 1` with Lean's
`x / 0 = 0` convention; no claim inspects the resulting `sharpe`.) -/
def pctChange : List ℚ → List ℚ
  | [] => []
  | v :: r => 0 :: List.zipWith (fun b a => b / a - 1) r (v :: r)

/-- Sample variance with `ddof=1` (0 if fewer than two samples), as used for
the Sharpe denominator. -/
def sampleVar (xs : List ℚ) : ℚ :=
  if xs.length ≤ 1 then 0
  else
    let mu := xs.sum / xs.length
    (xs.map fun x => (x - mu) ^ 2).sum / (xs.length - 1 : ℚ)

/-- CAGR (line 136): `(end/start) ** (1/max(years, 1e-9)) - 1` when the start
equity is positive, else `0.0`; `years = days/365`. -/
noncomputable def cagrOf (start_eq end_eq days : ℚ) : ℝ :=
  if 0 < start_eq then
    ((end_eq / start_eq : ℚ) : ℝ) ^ ((1 : ℝ) / max ((days : ℝ) / 365) (1e-9)) - 1
  else 0

/-- The fields of the dictionary returned by `StrategyBase.metrics`. -/
structure Metrics where
  sid : ℕ
  final_equity : ℚ
  pnl : ℚ
  sharpe : ℝ
  max_dd : ℚ
  trades : ℕ
  winrate : ℚ
  cagr : ℝ
  days : ℚ

/-- `StrategyBase.metrics` (lines 101-160): `none` models the empty dict
returned for an empty equity series.  Equity values in this exact model are
never NaN, so the NaN mask of lines 112-117 is the identity and the first
valid timestamp is the first timestamp. -/
noncomputable def Ledger.metrics (sid : ℕ) (L : Ledger) : Option Metrics :=
  match L.equity with
  | [] => none
  | e0 :: rest =>
    let vals := e0.2 :: rest.map Prod.snd
    let t1 := ((e0 :: rest).getLast (List.cons_ne_nil _ _)).1
    let days : ℚ := max (((t1 : ℚ) - (e0.1 : ℚ)) / 86400) (1e-9)
    let ret := pctChange vals
    let mu : ℚ := ret.sum / ret.length
    let sigma : ℝ := if 1 < ret.length then Real.sqrt (sampleVar ret) else 0
    let sharpe : ℝ := if 0 < sigma then ((mu : ℝ) / sigma) * Real.sqrt 1440 else 0
    let start_eq := e0.2
    let end_eq := vals.getLast (List.cons_ne_nil _ _)
    let wl := pairWL L.trades
    some
      { sid := sid
        final_equity := end_eq
        pnl := end_eq - start_eq
        sharpe := sharpe
        max_dd := maxDD vals
        trades := L.trades.length
        winrate := (wl.1 : ℚ) / max 1 (wl.1 + wl.2)
        cagr := cagrOf start_eq end_eq days
        days := days }

/-! ### Indicator library (`indicators.py`) -/

/-- `series.diff()`: NaN at position 0, then successive differences. -/
def diffL : List ℚ → List NQ
  | [] => []
  | x :: r => none :: List.zipWith (fun b a => some (b - a)) r (x :: r)

/-- Collect a window of cells; `none` (NaN anywhere in the window) poisons it,
exactly as a pandas rolling aggregate with the default `min_periods`. -/
def allSome : List NQ → Option (List ℚ)
  | [] => some []
  | none :: _ => none
  | some x :: r => (allSome r).map (x :: ·)

/-- The length-`n` rolling window ending at position `i`. -/
def windowAt (n i : ℕ) (xs : List NQ) : List NQ :=
  (xs.drop (i + 1 - n)).take n

/-- `series.rolling(n).mean()`: NaN for the first `n-1` positions and for any
window containing a NaN, else the arithmetic mean of the window. -/
def rollingMean (n : ℕ) (xs : List NQ) : List NQ :=
  (List.range xs.length).map fun i =>
    if i + 1 < n then none
    else (allSome (windowAt n i xs)).map fun w => w.sum / n

/-- Maximum of a window of rationals (`none` on the empty window). -/
def listMaxQ : List ℚ → Option ℚ
  | [] => none
  | x :: r => some (r.foldl max x)

/-- Minimum of a window of rationals (`none` on the empty window). -/
def listMinQ : List ℚ → Option ℚ
  | [] => none
  | x :: r => some (r.foldl min x)

/-- `series.rolling(n).max()` with pandas NaN semantics. -/
def rollingMax (n : ℕ) (xs : List NQ) : List NQ :=
  (List.range xs.length).map fun i =>
    if i + 1 < n then none
    else (allSome (windowAt n i xs)).bind listMaxQ

/-- `series.rolling(n).min()` with pandas NaN semantics. -/
def rollingMin (n : ℕ) (xs : List NQ) : List NQ :=
  (List.range xs.length).map fun i =>
    if i + 1 < n then none
    else (allSome (windowAt n i xs)).bind listMinQ

/-- `sma(series, n) = series.rolling(n).mean()` on an all-valid close series
(`indicators.py`, line 88). -/
def sma (n : ℕ) (close : List ℚ) : List NQ :=
  rollingMean n (close.map some)

/-- Population variance of the length-`n` rolling window; `rolling(n).std(ddof=0)`
is its square root (used only inside a comparison, see `bbLowerLe`). -/
def rollingVar (n : ℕ) (close : List ℚ) : List NQ :=
  (List.range close.length).map fun i =>
    if i + 1 < n then none
    else
      let w := (close.drop (i + 1 - n)).take n
      let m := w.sum / n
      some ((w.map fun x => (x - m) ^ 2).sum / n)

/-- `series.ewm(span, adjust=False).mean()` tail recursion: each value is
`alpha*x + (1-alpha)*prev`. -/
def emaGo (alpha : ℚ) (prev : ℚ) : List ℚ → List ℚ
  | [] => []
  | x :: r =>
    let e := alpha * x + (1 - alpha) * prev
    e :: emaGo alpha e r

/-- Exponential moving average with `alpha = 2/(span+1)`, first output equal to
the first input (`adjust=False`). -/
def ema (span : ℕ) : List ℚ → List ℚ
  | [] => []
  | x :: r => x :: emaGo (2 / (span + 1)) x r

/-- `macd(series, fast, slow, signal)` (`indicators.py`, lines 41-70), returning
`(macd_line, signal_line)`; the histogram is computed by the source but unused
by the strategies' decisions. -/
def macd (close : List ℚ) (fast slow signal : ℕ) : List ℚ × List ℚ :=
  let macd_line := List.zipWith (· - ·) (ema fast close) (ema slow close)
  (macd_line, ema signal macd_line)

/-- One cell of `rsi`: `rs = gain/loss`, `out = 100 - 100/(1+rs)`, with the
float semantics of the source: a NaN average propagates; `loss = 0` with
`gain > 0` gives `rs = +inf` hence RSI `100`; `0/0` is NaN. -/
def rsiCell : NQ → NQ → NQ
  | some g, some l =>
    if l = 0 then (if g = 0 then none else some 100)
    else some (100 - 100 / (1 + g / l))
  | _, _ => none

/-- `rsi(series, period)` (`indicators.py`, lines 17-38): rolling means of the
clipped positive/negative parts of `series.diff()` over `period`. -/
def rsi (close : List ℚ) (period : ℕ) : List NQ :=
  let delta := diffL close
  let gain := rollingMean period (delta.map (Option.map fun d => max d 0))
  let loss := rollingMean period (delta.map (Option.map fun d => -(min d 0)))
  List.zipWith rsiCell gain loss

/-- One row of the true range: the row-wise `max` of `h-l`, `|h-prev_c|`,
`|l-prev_c|`; pandas `max(axis=1)` skips NaN entries, so a missing previous
close leaves `h-l`. -/
def trCell (h l : ℚ) (pc : NQ) : ℚ :=
  match pc with
  | none => h - l
  | some c => max (h - l) (max |h - c| |l - c|)

/-- The true-range series of a bar list (previous close = `close.shift(1)`). -/
def trueRangeGo (pc : NQ) : List Bar → List ℚ
  | [] => []
  | b :: r => trCell b.high b.low pc :: trueRangeGo b.close r

/-- True range per bar, as built by `atr` (`indicators.py`, lines 106-114). -/
def trueRange (bars : List Bar) : List ℚ :=
  trueRangeGo none bars

/-- `atr(df, n) = true_range.rolling(n).mean()` (`indicators.py`, line 115). -/
def atr (bars : List Bar) (n : ℕ) : List NQ :=
  rollingMean n ((trueRange bars).map some)

/-! ### Strategy state machines (`strategies.py`)

Each strategy's `_decide` is embedded as a pure function
`params → position → price → close-history → bar-history → aux → aux × Option Side`
(the timestamp argument of the source is never read by any `_decide`). -/

/-- A Python float value as stored in `DonchianBreakout.trailing`: a rational,
`-inf` (from `self.trailing or -np.inf`), or NaN (ATR still undefined). -/
inductive FV where
  | nan
  | ninf
  | val (q : ℚ)
  deriving DecidableEq, Repr

/-- Python `<` on such floats: NaN compares false with everything. -/
def fvLt : FV → FV → Bool
  | FV.val a, FV.val b => decide (a < b)
  | FV.ninf, FV.val _ => true
  | _, _ => false

/-- Python `max(a, b)`: returns `b` exactly when `b > a` (so a NaN second
argument is ignored and a NaN first argument wins). -/
def fvMax (a b : FV) : FV := if fvLt a b then b else a

/-- Python truthiness of `x or d` for an optional float `x`: `None`, `0.0`
(and nothing else, NaN and `-inf` being truthy) fall back to `d`. -/
def fvOr (x : Option FV) (d : FV) : FV :=
  match x with
  | none => d
  | some f => if f = FV.val 0 then d else f

/-- Python `x or d` for an optional rational (`MACDRSI.high_since_entry`):
`None` and `0.0` are falsy. -/
def qOr (x : Option ℚ) (d : ℚ) : ℚ :=
  match x with
  | none => d
  | some q => if q = 0 then d else q

/-- Parameters of `MACDRSI` (defaults 12, 26, 9, 14, 55, 70, 0.02). -/
structure MACDRSIParams where
  macd_fast : ℕ
  macd_slow : ℕ
  macd_signal : ℕ
  rsi_period : ℕ
  rsi_buy : ℚ
  rsi_sell : ℚ
  trail_pct : ℚ
  deriving DecidableEq, Repr

/-- `MACDRSI._decide` (`strategies.py`, lines 63-80); the aux state is
`high_since_entry`. -/
def macdrsiDecide (p : MACDRSIParams) (pos price : ℚ) (close : List ℚ)
    (hse : Option ℚ) : Option ℚ × Option Side :=
  let ms := macd close p.macd_fast p.macd_slow p.macd_signal
  if ms.1.length < 3 then (hse, none)
  else
    let md_now := qLast ms.1 - qLast ms.2
    let md_prev := qPrev ms.1 - qPrev ms.2
    let rsi_now := ilocLast (rsi close p.rsi_period)
    if 0 < pos then
      let hse' := max (qOr hse price) price
      let trail_stop := hse' * (1 - p.trail_pct)
      if (md_now < 0 ∧ 0 < md_prev) ∨ nqLe (some p.rsi_sell) rsi_now ∨ price ≤ trail_stop
      then (none, some Side.sell)
      else (some hse', none)
    else
      if (0 < md_now ∧ md_prev < 0) ∧ nqLe (some p.rsi_buy) rsi_now
      then (some price, some Side.buy)
      else (hse, none)

/-- Parameters of `SMACross` (defaults 10, 30, 14, 50, 0.02). -/
structure SMACrossParams where
  fast : ℕ
  slow : ℕ
  rsi_period : ℕ
  rsi_filter : ℚ
  trail_pct : ℚ
  deriving DecidableEq, Repr

/-- `SMACross._decide` (`strategies.py`, lines 132-153); the aux state is
`high_since_entry`. -/
def smacrossDecide (p : SMACrossParams) (pos price : ℚ) (close : List ℚ)
    (hse : Option ℚ) : Option ℚ × Option Side :=
  if close.length < max p.fast p.slow + 2 then (hse, none)
  else
    let s_fast := sma p.fast close
    let s_slow := sma p.slow close
    let c_now := nqSub (ilocLast s_fast) (ilocLast s_slow)
    let c_prev := nqSub (ilocPrev s_fast) (ilocPrev s_slow)
    let r := ilocLast (rsi close p.rsi_period)
    if 0 < pos then
      let hse' := max (qOr hse price) price
      if price ≤ hse' * (1 - p.trail_pct) ∨ (nqLt c_now (some 0) ∧ nqLt (some 0) c_prev)
         ∨ nqLt (some 70) r
      then (none, some Side.sell)
      else (some hse', none)
    else
      if nqLt (some 0) c_now ∧ nqLt c_prev (some 0) ∧ nqLe (some p.rsi_filter) r
      then (some price, some Side.buy)
      else (hse, none)

/-- Parameters of `DonchianBreakout` (defaults 20, 10, 14, 2.0). -/
structure DonchianParams where
  ch : ℕ
  exit_ch : ℕ
  atr_n : ℕ
  atr_mult : ℚ
  deriving DecidableEq, Repr

/-- The float `price - atr_mult * _atr.iloc[-1]` (NaN when ATR is undefined). -/
def donchCand (price atr_mult : ℚ) (atrLast : NQ) : FV :=
  match atrLast with
  | none => FV.nan
  | some a => FV.val (price - atr_mult * a)

/-- `DonchianBreakout._decide` (`strategies.py`, lines 198-214); the aux
state is the trailing stop.  The in-position update is
`trailing = max(trailing or -inf, price - atr_mult*ATR)` with Python
truthiness, so a trailing of exactly `0.0` is discarded like `None`. -/
def donchianDecide (p : DonchianParams) (pos price : ℚ) (dfFull : List Bar)
    (tr : Option FV) : Option FV × Option Side :=
  if dfFull.length < max p.ch p.exit_ch + 2 then (tr, none)
  else
    let dc_high := rollingMax p.ch (dfFull.map fun b => some b.high)
    let exit_low := rollingMin p.exit_ch (dfFull.map fun b => some b.low)
    let atrLast := ilocLast (atr dfFull p.atr_n)
    let closeLast := ilocLast (dfFull.map Bar.close)
    if pos = 0 then
      if nqLt (ilocPrev dc_high) closeLast
      then (some (donchCand price p.atr_mult atrLast), some Side.buy)
      else (tr, none)
    else
      let tr' := fvMax (fvOr tr FV.ninf) (donchCand price p.atr_mult atrLast)
      if nqLt closeLast (ilocLast exit_low) ∨ fvLt (FV.val price) tr'
      then (none, some Side.sell)
      else (some tr', none)

/-- Parameters of `BollingerReversion` (defaults 20, 2.0, 14, 35, 50, 14, 2.0). -/
structure BollingerParams where
  bb_period : ℕ
  bb_dev : ℚ
  rsi_period : ℕ
  rsi_buy : ℚ
  rsi_exit : ℚ
  atr_n : ℕ
  atr_mult : ℚ
  deriving DecidableEq, Repr

/-- The entry comparison `price <= (mid - bb_dev*std).iloc[-1]` of
`BollingerReversion._decide`, written without a square root:
for `v >= 0`, `price ≤ m - d*sqrt v` iff
(when `0 ≤ d`) `price ≤ m` and `d^2*v ≤ (m-price)^2`, and
(when `d < 0`) `price ≤ m` or `(m-price)^2 ≤ d^2*v`.
`bbLowerLe_eq_real` below proves this equal to the source's comparison.
A NaN band (incomplete window) compares false. -/
def bbLowerLe (price : ℚ) (mid var : NQ) (dev : ℚ) : Bool :=
  match mid, var with
  | some m, some v =>
    if 0 ≤ dev then decide (price ≤ m) && decide (dev ^ 2 * v ≤ (m - price) ^ 2)
    else decide (price ≤ m) || decide ((m - price) ^ 2 ≤ dev ^ 2 * v)
  | _, _ => false

/-- `BollingerReversion._decide` (`strategies.py`, lines 257-291); the aux
state is the static protective stop `stop_px`. -/
def bollingerDecide (p : BollingerParams) (pos price : ℚ) (close : List ℚ)
    (dfFull : List Bar) (stop_px : Option ℚ) : Option ℚ × Option Side :=
  if close.length < max p.bb_period (max p.rsi_period p.atr_n) + 2 then (stop_px, none)
  else
    let mid := sma p.bb_period close
    let varL := rollingVar p.bb_period close
    let r := ilocLast (rsi close p.rsi_period)
    let atrLast := ilocLast (atr dfFull p.atr_n)
    if 0 < pos then
      if (match stop_px with | some sp => decide (price ≤ sp) | none => false)
      then (none, some Side.sell)
      else if nqLe (ilocLast mid) (some price) ∨ nqLe (some p.rsi_exit) r
      then (none, some Side.sell)
      else (stop_px, none)
    else
      if bbLowerLe price (ilocLast mid) (ilocLast varL) p.bb_dev ∧ nqLe r (some p.rsi_buy)
      then ((match atrLast with
             | some a => some (price - p.atr_mult * a)
             | none => none), some Side.buy)
      else (stop_px, none)

/-- The closed set of strategy variants (parameters). -/
inductive StratParams where
  | macdrsi (p : MACDRSIParams)
  | smacross (p : SMACrossParams)
  | donchian (p : DonchianParams)
  | bollinger (p : BollingerParams)
  deriving DecidableEq, Repr

/-- The per-variant auxiliary state, as initialized by `_after_reset`. -/
inductive StratAux where
  | macdrsi (high_since_entry : Option ℚ)
  | smacross (high_since_entry : Option ℚ)
  | donchian (trailing : Option FV)
  | bollinger (stop_px : Option ℚ)
  deriving DecidableEq, Repr

/-- `_after_reset` of each variant: all auxiliary state cleared. -/
def initAux : StratParams → StratAux
  | StratParams.macdrsi _ => StratAux.macdrsi none
  | StratParams.smacross _ => StratAux.smacross none
  | StratParams.donchian _ => StratAux.donchian none
  | StratParams.bollinger _ => StratAux.bollinger none

/-- Dispatch on the strategy variant (`_decide` virtual call).  A mismatched
aux state (impossible along any run) holds and leaves the state unchanged. -/
def decideAny : StratParams → ℚ → ℚ → List ℚ → List Bar → StratAux →
    StratAux × Option Side
  | StratParams.macdrsi p, pos, price, close, _, StratAux.macdrsi h =>
    let r := macdrsiDecide p pos price close h
    (StratAux.macdrsi r.1, r.2)
  | StratParams.smacross p, pos, price, close, _, StratAux.smacross h =>
    let r := smacrossDecide p pos price close h
    (StratAux.smacross r.1, r.2)
  | StratParams.donchian p, pos, price, _, dfFull, StratAux.donchian t =>
    let r := donchianDecide p pos price dfFull t
    (StratAux.donchian r.1, r.2)
  | StratParams.bollinger p, pos, price, close, dfFull, StratAux.bollinger s =>
    let r := bollingerDecide p pos price close dfFull s
    (StratAux.bollinger r.1, r.2)
  | _, _, _, _, _, a => (a, none)

/-! ### Backtest runner (`backtest.py`) and the optimizer's inline loop -/

/-- One strategy instance: id, parameters, fee, ledger and aux state.
`run_backtest_multi` builds these with `start_cash = 5000` (the
`StrategyBase` default, never overridden by a subclass constructor). -/
structure MInst where
  sid : ℕ
  params : StratParams
  fee : ℚ
  ledger : Ledger
  aux : StratAux
  deriving DecidableEq, Repr

/-- A fresh instance (`Cls(sid=idx, **params)`). -/
def mkInst (sid : ℕ) (params : StratParams) (fee : ℚ) : MInst :=
  { sid := sid, params := params, fee := fee,
    ledger := Ledger.reset 5000, aux := initAux params }

/-- `StrategyBase.step`: `_decide` then the ledger execution. -/
def mstep (i : MInst) (ts : ℕ) (px : ℚ) (cs : List ℚ) (dfFull : List Bar) : MInst :=
  let d := decideAny i.params i.ledger.position px cs dfFull i.aux
  { i with ledger := stepExec i.fee i.sid i.ledger ts px d.2, aux := d.1 }

/-- The arguments handed to every strategy's `step` on one valid bar:
timestamp, close price, close-price history `cs`, and bar history `df_full`. -/
structure StepArgs where
  ts : ℕ
  px : ℚ
  cs : List ℚ
  dfFull : List Bar
  deriving DecidableEq, Repr

/-- The view sequence the runner actually builds (`backtest.py` lines 47-55,
and identically `optimizer.py` lines 99-107): bars with NaN close are skipped;
on a valid bar, `cs` is the list of valid closes seen so far and
`df_full = df.iloc[:len(closes)]` is the first-`len(closes)` bars of the
whole input. -/
def stepArgsGo (df : List Bar) : List Bar → List ℚ → List StepArgs
  | [], _ => []
  | b :: rest, closes =>
    match b.close with
    | none => stepArgsGo df rest closes
    | some px =>
      let closes' := closes ++ [px]
      ⟨b.ts, px, closes', df.take closes'.length⟩ :: stepArgsGo df rest closes'

/-- The common per-bar views of a backtest over `df`. -/
def stepArgs (df : List Bar) : List StepArgs := stepArgsGo df df []

/-- Modelled from the spec: the views §4.4 claims the runner passes — on each
bar with a valid close, the closing-price history and the full bar history
consisting of exactly the bars up to and including the current bar. -/
def specViewsGo (df : List Bar) : ℕ → List Bar → List StepArgs
  | _, [] => []
  | k, b :: rest =>
    match b.close with
    | none => specViewsGo df (k + 1) rest
    | some px =>
      ⟨b.ts, px, (df.take (k + 1)).filterMap Bar.close, df.take (k + 1)⟩ ::
        specViewsGo df (k + 1) rest

/-- Modelled from the spec: see `specViewsGo`. -/
def specViews (df : List Bar) : List StepArgs := specViewsGo df 0 df

/-- Advance one instance through one view. -/
def mstepA (i : MInst) (a : StepArgs) : MInst := mstep i a.ts a.px a.cs a.dfFull

/-- The loop of `run_backtest_multi` (`backtest.py`, lines 47-56): per valid
bar, every instance steps on the same `(ts, px, cs, df_full)` before the next
bar is consumed. -/
def runMultiGo (df : List Bar) : List Bar → List ℚ → List MInst → List MInst
  | [], _, strats => strats
  | b :: rest, closes, strats =>
    match b.close with
    | none => runMultiGo df rest closes strats
    | some px =>
      let closes' := closes ++ [px]
      runMultiGo df rest closes'
        (strats.map fun s => mstep s b.ts px closes' (df.take closes'.length))

/-- `run_backtest_multi(df, strategy_specs)`: instantiate each spec with
sequential ids starting at 1, then replay the series. -/
def run_backtest_multi (df : List Bar) (specs : List (StratParams × ℚ)) :
    List MInst :=
  runMultiGo df df []
    ((List.range specs.length).zip specs |>.map fun p => mkInst (p.1 + 1) p.2.1 p.2.2)

/-- A single-instance backtest along the common views (the inline loop of
`grid_search_one`, `optimizer.py` lines 99-107, with `sid = 1`). -/
def runOne (params : StratParams) (fee : ℚ) (df : List Bar) : MInst :=
  (stepArgs df).foldl mstepA (mkInst 1 params fee)

/-! ### Scoring and grid search (`optimizer.py`) -/

/-- The disqualification sentinel `-1e9`. -/
def sentinel : ℝ := -1e9

/-- The branch structure of `score_metrics` on the raw dictionary values
`m.get("trades", 0)`, `m.get("cagr", 0.0)`, `m.get("max_dd", 1.0)`,
`m.get("sharpe", 0.0)` (`optimizer.py`, lines 50-59). -/
noncomputable def scoreVals (trades : ℕ) (cagr : ℝ) (max_dd : ℚ) (sharpe : ℝ)
    (min_trades : ℕ) (max_dd_cap : ℚ) : ℝ :=
  if trades < min_trades then sentinel
  else if cagr ≤ 0 then sentinel
  else if max_dd_cap < max_dd then sentinel
  else 0.6 * sharpe + 0.4 * (cagr * 100) - 2.0 * ((max_dd : ℝ) * 100)

/-- `score_metrics` applied to what `metrics()` returned (`none` is the empty
dict, whose `.get` defaults are 0 trades, cagr 0.0, max_dd 1.0, sharpe 0.0). -/
noncomputable def score_metrics (m : Option Metrics) (min_trades : ℕ)
    (max_dd_cap : ℚ) : ℝ :=
  match m with
  | none => scoreVals 0 0 1 0 min_trades max_dd_cap
  | some m => scoreVals m.trades m.cagr m.max_dd m.sharpe min_trades max_dd_cap

/-- The candidate loop of `grid_search_one` (`optimizer.py`, lines 94-111):
`best_score` starts at `-1e9`, and a candidate replaces the best only under
the strict comparison `sc > best_score`. -/
noncomputable def gridSearchGo {P : Type} (runM : P → Option Metrics)
    (min_trades : ℕ) (max_dd_cap : ℚ) :
    List P → Option (P × Option Metrics) → ℝ → Option (P × Option Metrics)
  | [], best, _ => best
  | p :: rest, best, best_score =>
    let m := runM p
    let sc := score_metrics m min_trades max_dd_cap
    if best_score < sc then gridSearchGo runM min_trades max_dd_cap rest (some (p, m)) sc
    else gridSearchGo runM min_trades max_dd_cap rest best best_score

/-- `grid_search_one` over an abstract parameter grid, with
`runM p` = backtest `p` over the series and take its metrics.  A `none` result
models the failure of the final
`assert best_params is not None and best_metrics is not None`
(an `AssertionError` escaping to the caller instead of a returned pair). -/
noncomputable def grid_search_one {P : Type} (grid : List P)
    (runM : P → Option Metrics) (min_trades : ℕ) (max_dd_cap : ℚ) :
    Option (P × Option Metrics) :=
  gridSearchGo runM min_trades max_dd_cap grid none sentinel

/-- `DonchianBreakout.grid(fee)` (`strategies.py`, lines 217-231):
`ch ∈ {20,30} × exit_ch ∈ {10,15} × atr_n ∈ {14} × atr_mult ∈ {2.0,2.5}` in
enumeration order. -/
def donchianGrid : List DonchianParams :=
  [20, 30].flatMap fun ch =>
    [10, 15].flatMap fun ex =>
      [14].flatMap fun an =>
        [2, 5/2].map fun am =>
          { ch := ch, exit_ch := ex, atr_n := an, atr_mult := am }

/-- `grid_search_one(df, DonchianBreakout, fee=fee)`: the concrete
instantiation over the Donchian grid, backtesting each candidate inline with
`sid = 1` and scoring its metrics. -/
noncomputable def grid_search_one_donchian (df : List Bar) (fee : ℚ)
    (min_trades : ℕ) (max_dd_cap : ℚ) : Option (DonchianParams × Option Metrics) :=
  grid_search_one donchianGrid
    (fun p => ((runOne (StratParams.donchian p) fee df).ledger.metrics 1))
    min_trades max_dd_cap

/-! ### Auxiliary predicates and concrete scenario inputs -/

/-- The opposite trade side. -/
def Side.other : Side → Side
  | Side.buy => Side.sell
  | Side.sell => Side.buy

/-- The side sequence `e, other e, e, ...` checker: `expectSides e l` holds iff
`l` strictly alternates starting with `e`. -/
def expectSides : Side → List Side → Bool
  | _, [] => true
  | e, s :: r => s == e && expectSides e.other r

/-- The side expected after an alternating sequence starting at `e`. -/
def nextSide (e : Side) (l : List Side) : Side :=
  l.foldl (fun x _ => x.other) e

/-- The list of trade sides of a ledger, in order. -/
def sides (L : Ledger) : List Side := L.trades.map Trade.side

/-- MACD+RSI default parameters (`MACDRSI.__init__`). -/
def macdrsiDefault : MACDRSIParams :=
  { macd_fast := 12, macd_slow := 26, macd_signal := 9, rsi_period := 14,
    rsi_buy := 55, rsi_sell := 70, trail_pct := 1/50 }

/-- SMA Cross default parameters (`SMACross.__init__`). -/
def smacrossDefault : SMACrossParams :=
  { fast := 10, slow := 30, rsi_period := 14, rsi_filter := 50, trail_pct := 1/50 }

/-- Donchian Breakout default parameters (`DonchianBreakout.__init__`). -/
def donchianDefault : DonchianParams :=
  { ch := 20, exit_ch := 10, atr_n := 14, atr_mult := 2 }

/-- Bollinger Reversion default parameters (`BollingerReversion.__init__`). -/
def bollingerDefault : BollingerParams :=
  { bb_period := 20, bb_dev := 2, rsi_period := 14, rsi_buy := 35,
    rsi_exit := 50, atr_n := 14, atr_mult := 2 }

/-- 100 bars, all at the constant price 100 (the §8 scenario of the spec). -/
def df100 : List Bar := (List.range 100).map fun i => ⟨i, 100, 100, some 100⟩

/-- The four built-in strategies at their default parameters, fee 0.001. -/
def specs4 : List (StratParams × ℚ) :=
  [(StratParams.macdrsi macdrsiDefault, 1/1000),
   (StratParams.smacross smacrossDefault, 1/1000),
   (StratParams.donchian donchianDefault, 1/1000),
   (StratParams.bollinger bollingerDefault, 1/1000)]

/-- A two-bar series whose first bar has a NaN close (for claim C2). -/
def dfNaN : List Bar := [⟨0, 5, 4, none⟩, ⟨1, 5, 4, some 1⟩]

/-- A two-bar series for the ATR warm-up counterexample (claim C3). -/
def barsATR : List Bar := [⟨0, 2, 1, some (3/2)⟩, ⟨1, 3, 1, some 2⟩]

/-- A five-bar series on which a Donchian entry sets the trailing stop to
exactly 0.0, after which the stop falls (claim C4). -/
def dfTrail : List Bar :=
  [⟨0, 5, 4, some (9/2)⟩, ⟨1, 5, 4, some (9/2)⟩, ⟨2, 5, 4, some (9/2)⟩,
   ⟨3, 12, 2, some 10⟩, ⟨4, 9, 2, some 5⟩]

/-- Donchian parameters `ch=2, exit_ch=2, atr_n=1, atr_mult=1` for `dfTrail`. -/
def trailParams : DonchianParams := { ch := 2, exit_ch := 2, atr_n := 1, atr_mult := 1 }

/-- The §8 trade-log scenario `[BUY@10, SELL@12, BUY@14, SELL@11]` (quantity 1). -/
def trades4 : List Trade :=
  [⟨0, Side.buy, 10, 1, 1⟩, ⟨1, Side.sell, 12, 1, 1⟩,
   ⟨2, Side.buy, 14, 1, 1⟩, ⟨3, Side.sell, 11, 1, 1⟩]

/-- A ledger whose equity dips negative: `1` then `-1` (claim C9). -/
def negEquityLedger : Ledger :=
  { position := 0, cash := 1, trades := [], equity := [(0, 1), (86400, -1)] }

/-- A one-valid-bar series: every Donchian grid candidate backtests to zero
trades on it, so every candidate is disqualified by the scorer (claim C1). -/
def dfOneBar : List Bar := [⟨0, 101, 99, some 100⟩]

/-- The ledger invariant maintained across steps: nonnegative position, a
trade log alternating BUY, SELL, ... from BUY, and the position is open
exactly when the next expected side is SELL. -/
def LedgerInv (L : Ledger) : Prop :=
  0 ≤ L.position ∧ expectSides Side.buy (sides L) = true
    ∧ (0 < L.position ↔ nextSide Side.buy (sides L) = Side.sell)

/-- A view produced by the runner on an all-constant price-100 series: price
100, a close history of some positive length `k+1` all at 100, and a bar
history of the same length with high = low = 100 and close 100. -/
def ConstView (a : StepArgs) : Prop :=
  a.px = 100 ∧ ∃ k, a.cs = List.replicate (k + 1) 100
    ∧ (∀ b ∈ a.dfFull, b.high = 100 ∧ b.low = 100 ∧ b.close = some 100)
    ∧ a.dfFull.length = k + 1

/-- Well-formedness of strategy parameters: every rolling/indicator window
that the variant uses is at least 1 (as pandas itself requires).  All four
default parameter sets satisfy this. -/
def paramsOK : StratParams → Prop
  | StratParams.macdrsi _ => True
  | StratParams.smacross p => 1 ≤ p.fast ∧ 1 ≤ p.slow
  | StratParams.donchian p => 1 ≤ p.ch
  | StratParams.bollinger p => 1 ≤ p.bb_period ∧ 1 ≤ p.rsi_period

/-! ## Theorems -/

/-- C5: the ledger step executes signals exactly as specified: a BUY while
flat sizes `qty = cash/(price*(1+fee))` and, when `qty` exceeds the epsilon
`1e-9`, debits `qty*price*(1+fee)`, sets the position to `qty` and appends a
BUY trade; a SELL while holding credits `position*price*(1-fee)`, zeroes the
position and appends a SELL trade; and in every case one equity sample
`(ts, cash + position*price)` is appended. -/
theorem step_executes_signals (fee : ℚ) (sid ts : ℕ) (L : Ledger) (price : ℚ)
    (sig : Option Side) :
    (sig = some Side.buy → L.position = 0 → eps < L.cash / (price * (1 + fee)) →
      stepExec fee sid L ts price sig =
        { position := L.cash / (price * (1 + fee)),
          cash := L.cash - L.cash / (price * (1 + fee)) * price * (1 + fee),
          trades := L.trades ++ [⟨ts, Side.buy, price, L.cash / (price * (1 + fee)), sid⟩],
          equity := L.equity ++
            [(ts, L.cash - L.cash / (price * (1 + fee)) * price * (1 + fee)
                   + L.cash / (price * (1 + fee)) * price)] })
    ∧ (sig = some Side.sell → 0 < L.position →
      stepExec fee sid L ts price sig =
        { position := 0,
          cash := L.cash + L.position * price * (1 - fee),
          trades := L.trades ++ [⟨ts, Side.sell, price, L.position, sid⟩],
          equity := L.equity ++
            [(ts, L.cash + L.position * price * (1 - fee) + 0 * price)] })
    ∧ (stepExec fee sid L ts price sig).equity
        = L.equity ++ [(ts, (stepExec fee sid L ts price sig).cash
                             + (stepExec fee sid L ts price sig).position * price)] := by
  refine ⟨?_, ?_, ?_⟩
  · intro h1 h2 h3
    simp [stepExec, h1, h2, h3]
  · intro h1 h2
    simp [stepExec, h1, h2]
  · simp only [stepExec]
    split
    · split
      · rfl
      · rfl
    · split
      · rfl
      · rfl

/-- Witness for `step_executes_signals`: the BUY case with 5000 cash at price
10 and fee 0.001. -/
theorem step_executes_signals_w :
    eps < (5000 : ℚ) / (10 * (1 + 1/1000))
    ∧ stepExec (1/1000) 1 (Ledger.reset 5000) 0 10 (some Side.buy) =
      { position := (5000 : ℚ) / (10 * (1 + 1/1000)),
        cash := 5000 - 5000 / (10 * (1 + 1/1000)) * 10 * (1 + 1/1000),
        trades := [⟨0, Side.buy, 10, 5000 / (10 * (1 + 1/1000)), 1⟩],
        equity := [(0, 5000 - 5000 / (10 * (1 + 1/1000)) * 10 * (1 + 1/1000)
                        + 5000 / (10 * (1 + 1/1000)) * 10)] } := by
  constructor
  · norm_num [eps]
  · have h := (step_executes_signals (1/1000) 1 0 (Ledger.reset 5000) 10
      (some Side.buy)).1 rfl rfl (by norm_num [eps, Ledger.reset])
    simpa [Ledger.reset] using h

/-- C10: whenever a BUY actually executes (signal BUY, flat position, computed
quantity above the epsilon threshold), the exact-arithmetic cash balance
immediately afterwards is exactly 0: the buy invests the entire balance, fee
included. -/
theorem buy_invests_entire_cash (fee : ℚ) (sid ts : ℕ) (L : Ledger) (price : ℚ)
    (hpos : L.position = 0) (hq : eps < L.cash / (price * (1 + fee))) :
    (stepExec fee sid L ts price (some Side.buy)).cash = 0 := by
  have hd : price * (1 + fee) ≠ 0 := by
    intro h0
    rw [h0, div_zero] at hq
    exact absurd hq (by norm_num [eps])
  have hc : L.cash / (price * (1 + fee)) * price * (1 + fee) = L.cash := by
    field_simp
    ring
  simp [stepExec, hpos, hq, hc]

/-- Witness for `buy_invests_entire_cash`: price 10, fee 0.001, cash 5000. -/
theorem buy_invests_entire_cash_w :
    (Ledger.reset 5000).position = 0
    ∧ eps < (Ledger.reset 5000).cash / (10 * (1 + 1/1000))
    ∧ (stepExec (1/1000) 1 (Ledger.reset 5000) 0 10 (some Side.buy)).cash = 0 :=
  ⟨rfl, by norm_num [eps, Ledger.reset],
    buy_invests_entire_cash (1/1000) 1 0 (Ledger.reset 5000) 10 rfl
      (by norm_num [eps, Ledger.reset])⟩

/-! ### Win/loss pairing (claim C8) -/

/-- Appending one trade to an evenly-paired log does not change the win/loss
counts: the trailing unmatched trade is excluded. -/
theorem pairWL_append_even :
    ∀ (t : List Trade) (b : Trade), t.length % 2 = 0 → pairWL (t ++ [b]) = pairWL t
  | [], _, _ => by simp [pairWL]
  | [_], _, h => by simp at h
  | x :: y :: rest, b, h => by
    have hr : rest.length % 2 = 0 := by
      simp only [List.length_cons] at h
      omega
    simp only [List.cons_append, pairWL, List.append_eq, pairWL_append_even rest b hr]

/-- C8: `metrics()` pairs trades two at a time under BUY,SELL alternation, a
pair is a win exactly when `(sell.price - buy.price)*buy.qty > 0`, a trailing
unmatched trade is excluded, the win rate is `wins / max(1, wins+losses)`,
and the §8 log `[BUY@10, SELL@12, BUY@14, SELL@11]` gives 1 win, 1 loss,
win rate 1/2. -/
theorem metrics_pairing_spec :
    (∀ (t : List Trade) (b : Trade), t.length % 2 = 0 → pairWL (t ++ [b]) = pairWL t)
    ∧ (∀ b s : Trade,
        pairWL [b, s] = if 0 < (s.price - b.price) * b.qty then (1, 0) else (0, 1))
    ∧ (∀ t : List Trade,
        winrateOf t = ((pairWL t).1 : ℚ) / max 1 ((pairWL t).1 + (pairWL t).2))
    ∧ pairWL trades4 = (1, 1) ∧ winrateOf trades4 = 1/2 := by
  refine ⟨pairWL_append_even, ?_, fun _ => rfl, ?_, ?_⟩
  · intro b s
    simp [pairWL]
  · with_unfolding_all decide
  · with_unfolding_all decide

/-- Witness for `metrics_pairing_spec`: dropping a trailing BUY from the
even-length §8 log. -/
theorem metrics_pairing_spec_w :
    trades4.length % 2 = 0
    ∧ pairWL (trades4 ++ [⟨4, Side.buy, 9, 1, 1⟩]) = pairWL trades4 :=
  ⟨by decide, metrics_pairing_spec.1 trades4 ⟨4, Side.buy, 9, 1, 1⟩ (by decide)⟩

/-! ### Drawdown and CAGR bounds (claim C9) -/

/-- The drawdown fold never decreases its accumulator. -/
theorem le_ddGo : ∀ (l : List ℚ) (peak dd : ℚ), dd ≤ ddGo peak dd l
  | [], _, _ => le_refl _
  | v :: r, peak, dd => by
    simp only [ddGo]
    split
    · exact le_trans (le_max_left _ _) (le_ddGo r _ _)
    · exact le_ddGo r _ _

/-- Over nonnegative values the drawdown fold stays at most 1. -/
theorem ddGo_le_one :
    ∀ (l : List ℚ) (peak dd : ℚ), dd ≤ 1 → (∀ v ∈ l, 0 ≤ v) → ddGo peak dd l ≤ 1
  | [], _, _, h1, _ => h1
  | v :: r, peak, dd, h1, hv => by
    simp only [ddGo]
    split
    · refine ddGo_le_one r _ _ (max_le h1 ?_) fun x hx => hv x (List.mem_cons_of_mem _ hx)
      rename_i hp
      rw [div_le_one hp]
      exact sub_le_self _ (hv v (List.mem_cons_self _ _))
    · exact ddGo_le_one r _ _ h1 fun x hx => hv x (List.mem_cons_of_mem _ hx)

/-- The fields of a nonempty-equity `metrics()` result, read off the
definition. -/
theorem metrics_fields (sid : ℕ) (L : Ledger) (e0 : ℕ × ℚ) (rest : List (ℕ × ℚ))
    (h : L.equity = e0 :: rest) :
    ∃ m, L.metrics sid = some m
      ∧ m.trades = L.trades.length
      ∧ m.final_equity = (e0.2 :: rest.map Prod.snd).getLast (List.cons_ne_nil _ _)
      ∧ m.max_dd = maxDD (e0.2 :: rest.map Prod.snd)
      ∧ m.cagr = cagrOf e0.2 ((e0.2 :: rest.map Prod.snd).getLast (List.cons_ne_nil _ _))
          (max (((((e0 :: rest).getLast (List.cons_ne_nil _ _)).1 : ℚ) - (e0.1 : ℚ)) / 86400)
            (1e-9))
      ∧ m.winrate = ((pairWL L.trades).1 : ℚ)
          / max 1 ((pairWL L.trades).1 + (pairWL L.trades).2) := by
  unfold Ledger.metrics
  rw [h]
  exact ⟨_, rfl, rfl, rfl, rfl, rfl, rfl⟩

/-- Counterexample to C9 as stated: on the equity series `[1, -1]` (reachable
when the mark price of an open position goes negative), `metrics()` reports
`max_dd = 2`, outside `[0, 1]`. -/
theorem max_dd_above_one :
    ∃ m, negEquityLedger.metrics 1 = some m ∧ m.max_dd = 2 ∧ ¬ m.max_dd ≤ 1 := by
  obtain ⟨m, hm, -, -, hdd, -, -⟩ :=
    metrics_fields 1 negEquityLedger (0, 1) [(86400, -1)] rfl
  have h2 : maxDD ((1 : ℚ) :: [((86400 : ℕ), (-1 : ℚ))].map Prod.snd) = 2 := by
    with_unfolding_all decide
  refine ⟨m, hm, ?_, ?_⟩
  · rw [hdd]
    exact h2
  · rw [hdd, h2]
    norm_num

/-- C9 (amended): `max_dd` is always nonnegative, and lies in `[0, 1]`
whenever every equity value is nonnegative (it can exceed 1 if equity goes
negative); `cagr = 0` whenever the starting equity is `≤ 0`. -/
theorem metrics_dd_cagr_bounds :
    (∀ vals : List ℚ, 0 ≤ maxDD vals)
    ∧ (∀ vals : List ℚ, (∀ v ∈ vals, 0 ≤ v) → maxDD vals ≤ 1)
    ∧ (∀ start_eq end_eq days : ℚ, start_eq ≤ 0 → cagrOf start_eq end_eq days = 0)
    ∧ (∀ (sid : ℕ) (L : Ledger) (e0 : ℕ × ℚ) (rest : List (ℕ × ℚ)),
        L.equity = e0 :: rest →
        ∃ m, L.metrics sid = some m ∧ 0 ≤ m.max_dd
          ∧ ((∀ v ∈ e0.2 :: rest.map Prod.snd, 0 ≤ v) → m.max_dd ≤ 1)
          ∧ (e0.2 ≤ 0 → m.cagr = 0)) := by
  have hnn : ∀ vals : List ℚ, 0 ≤ maxDD vals := by
    intro vals
    cases vals with
    | nil => exact le_refl _
    | cons v r => exact le_ddGo _ _ _
  have hle : ∀ vals : List ℚ, (∀ v ∈ vals, 0 ≤ v) → maxDD vals ≤ 1 := by
    intro vals hv
    cases vals with
    | nil => norm_num [maxDD]
    | cons v r => exact ddGo_le_one _ _ _ zero_le_one hv
  have hcagr : ∀ start_eq end_eq days : ℚ, start_eq ≤ 0 → cagrOf start_eq end_eq days = 0 := by
    intro s e d hs
    rw [cagrOf, if_neg (not_lt.mpr hs)]
  refine ⟨hnn, hle, hcagr, ?_⟩
  intro sid L e0 rest h
  obtain ⟨m, hm, -, -, hdd, hc, -⟩ := metrics_fields sid L e0 rest h
  exact ⟨m, hm, hdd ▸ hnn _, fun hv => hdd ▸ hle _ hv, fun hs => hc ▸ hcagr _ _ _ hs⟩

/-- Witness for `metrics_dd_cagr_bounds`: nonnegative series `[2, 1]` and a
zero starting equity. -/
theorem metrics_dd_cagr_bounds_w :
    (∀ v ∈ [(2 : ℚ), 1], 0 ≤ v) ∧ maxDD [2, 1] ≤ 1
    ∧ (0 : ℚ) ≤ 0 ∧ cagrOf 0 5 1 = 0 :=
  ⟨by norm_num, metrics_dd_cagr_bounds.2.1 [2, 1] (by norm_num),
    le_refl 0, metrics_dd_cagr_bounds.2.2.1 0 5 1 (le_refl 0)⟩

/-! ### Long-only alternation invariant (claim C6) -/

/-- Side flipping is an involution. -/
theorem Side.other_other (s : Side) : s.other.other = s := by
  cases s <;> rfl

/-- Alternation of `l ++ [x]` splits into alternation of `l` plus `x` being
the expected next side. -/
theorem expectSides_append (l : List Side) (x : Side) :
    ∀ e, expectSides e (l ++ [x]) = (expectSides e l && (x == nextSide e l)) := by
  induction l with
  | nil => intro e; simp [expectSides, nextSide]
  | cons s r ih =>
    intro e
    simp only [List.cons_append, expectSides, List.append_eq, Bool.and_assoc]
    rw [ih]
    rfl

/-- Appending one side flips the expected next side. -/
theorem nextSide_append (e : Side) (l : List Side) (x : Side) :
    nextSide e (l ++ [x]) = (nextSide e l).other := by
  simp [nextSide, List.foldl_append]

/-- A `nextSide` value that is not SELL is BUY. -/
theorem nextSide_eq_buy {e : Side} {l : List Side}
    (h : ¬ nextSide e l = Side.sell) : nextSide e l = Side.buy := by
  cases hn : nextSide e l with
  | buy => rfl
  | sell => exact absurd hn h

/-- The explicit form of an executed BUY step. -/
theorem stepExec_buy {sig : Option Side} {L : Ledger} (fee : ℚ) (sid ts : ℕ)
    (price : ℚ) (h1 : sig = some Side.buy) (h2 : L.position = 0)
    (h3 : eps < L.cash / (price * (1 + fee))) :
    stepExec fee sid L ts price sig =
      { position := L.cash / (price * (1 + fee)),
        cash := L.cash - L.cash / (price * (1 + fee)) * price * (1 + fee),
        trades := L.trades ++ [⟨ts, Side.buy, price, L.cash / (price * (1 + fee)), sid⟩],
        equity := L.equity ++
          [(ts, L.cash - L.cash / (price * (1 + fee)) * price * (1 + fee)
                 + L.cash / (price * (1 + fee)) * price)] } := by
  simp [stepExec, h1, h2, h3]

/-- The explicit form of an executed SELL step. -/
theorem stepExec_sell {sig : Option Side} {L : Ledger} (fee : ℚ) (sid ts : ℕ)
    (price : ℚ) (h1 : sig = some Side.sell) (h2 : 0 < L.position) :
    stepExec fee sid L ts price sig =
      { position := 0,
        cash := L.cash + L.position * price * (1 - fee),
        trades := L.trades ++ [⟨ts, Side.sell, price, L.position, sid⟩],
        equity := L.equity ++
          [(ts, L.cash + L.position * price * (1 - fee) + 0 * price)] } := by
  simp [stepExec, h1, h2]

/-- A BUY below the dust threshold only records equity. -/
theorem stepExec_dust {sig : Option Side} {L : Ledger} (fee : ℚ) (sid ts : ℕ)
    (price : ℚ) (h1 : sig = some Side.buy) (h2 : L.position = 0)
    (h3 : ¬ eps < L.cash / (price * (1 + fee))) :
    stepExec fee sid L ts price sig =
      { L with equity := L.equity ++ [(ts, L.cash + L.position * price)] } := by
  simp [stepExec, h1, h2, h3]

/-- A step that matches no executable branch only records equity. -/
theorem stepExec_skip {sig : Option Side} {L : Ledger} (fee : ℚ) (sid ts : ℕ)
    (price : ℚ) (hb : ¬ (sig = some Side.buy ∧ L.position = 0))
    (hs : ¬ (sig = some Side.sell ∧ 0 < L.position)) :
    stepExec fee sid L ts price sig =
      { L with equity := L.equity ++ [(ts, L.cash + L.position * price)] } := by
  simp [stepExec, hb, hs]

/-- One ledger step preserves `LedgerInv`. -/
theorem stepExec_inv (fee : ℚ) (sid ts : ℕ) (price : ℚ) (sig : Option Side)
    (L : Ledger) (h : LedgerInv L) : LedgerInv (stepExec fee sid L ts price sig) := by
  obtain ⟨h0, h1, h2⟩ := h
  simp only [LedgerInv, sides] at h1 h2 ⊢
  by_cases hb : sig = some Side.buy ∧ L.position = 0
  · by_cases hq : eps < L.cash / (price * (1 + fee))
    · have hpos : (0 : ℚ) < L.cash / (price * (1 + fee)) :=
        lt_trans (by norm_num [eps]) hq
      have hnext : nextSide Side.buy (L.trades.map Trade.side) = Side.buy := by
        refine nextSide_eq_buy fun hs => ?_
        have := h2.mpr hs
        rw [hb.2] at this
        exact lt_irrefl _ this
      rw [stepExec_buy fee sid ts price hb.1 hb.2 hq]
      refine ⟨le_of_lt hpos, ?_, ?_⟩ <;>
        simp only [List.map_append, List.map_cons, List.map_nil]
      · rw [expectSides_append, h1, hnext]
        rfl
      · rw [nextSide_append, hnext]
        simpa [Side.other] using hpos
    · rw [stepExec_dust fee sid ts price hb.1 hb.2 hq]
      exact ⟨h0, h1, h2⟩
  · by_cases hs : sig = some Side.sell ∧ 0 < L.position
    · have hnext : nextSide Side.buy (L.trades.map Trade.side) = Side.sell := h2.mp hs.2
      rw [stepExec_sell fee sid ts price hs.1 hs.2]
      refine ⟨le_refl _, ?_, ?_⟩ <;>
        simp only [List.map_append, List.map_cons, List.map_nil]
      · rw [expectSides_append, h1, hnext]
        rfl
      · rw [nextSide_append, hnext]
        simp [Side.other]
    · rw [stepExec_skip fee sid ts price hb hs]
      exact ⟨h0, h1, h2⟩

/-- The invariant holds after any run from a fresh reset. -/
theorem runLedger_inv (fee : ℚ) (sid : ℕ) (start_cash : ℚ)
    (inputs : List (ℕ × ℚ × Option Side)) :
    LedgerInv (runLedger fee sid start_cash inputs) := by
  have h0 : LedgerInv (Ledger.reset start_cash) := by
    refine ⟨le_refl _, rfl, ?_⟩
    simp [Ledger.reset, sides, nextSide]
  rw [runLedger]
  generalize Ledger.reset start_cash = L at h0 ⊢
  induction inputs generalizing L with
  | nil => exact h0
  | cons i rest ih => exact ih _ (stepExec_inv fee sid i.1 i.2.1 i.2.2 L h0)

/-- C6: over any sequence of steps from a reset the position stays
nonnegative and the trade log strictly alternates BUY, SELL, ... starting
with BUY; moreover any step that logs a BUY does so from `position == 0` and
any step that logs a SELL does so from `position > 0`. -/
theorem ledger_long_only_alternation (fee : ℚ) (sid : ℕ) (start_cash : ℚ)
    (inputs : List (ℕ × ℚ × Option Side)) :
    0 ≤ (runLedger fee sid start_cash inputs).position
    ∧ expectSides Side.buy (sides (runLedger fee sid start_cash inputs)) = true
    ∧ (∀ (L : Ledger) (ts : ℕ) (price : ℚ) (sig : Option Side) (tr : Trade),
        (stepExec fee sid L ts price sig).trades = L.trades ++ [tr] →
        (tr.side = Side.buy → L.position = 0) ∧ (tr.side = Side.sell → 0 < L.position)) := by
  obtain ⟨h0, h1, -⟩ := runLedger_inv fee sid start_cash inputs
  refine ⟨h0, h1, ?_⟩
  intro L ts price sig tr htr
  by_cases hb : sig = some Side.buy ∧ L.position = 0
  · by_cases hq : eps < L.cash / (price * (1 + fee))
    · simp only [stepExec, hb, hq, and_self, if_true, if_pos] at htr
      have : tr = ⟨ts, Side.buy, price, L.cash / (price * (1 + fee)), sid⟩ := by
        have := List.append_inj_right htr rfl
        simpa using this.symm
      subst this
      exact ⟨fun _ => hb.2, fun hc => by simp at hc⟩
    · simp [stepExec, hb, hq] at htr
  · by_cases hs : sig = some Side.sell ∧ 0 < L.position
    · simp only [stepExec, hb, hs, if_false, if_pos, and_self, if_true] at htr
      have : tr = ⟨ts, Side.sell, price, L.position, sid⟩ := by
        have := List.append_inj_right htr rfl
        simpa using this.symm
      subst this
      exact ⟨fun hc => by simp at hc, fun _ => hs.2⟩
    · simp [stepExec, hb, hs] at htr

/-- Witness for `ledger_long_only_alternation`: a BUY then SELL run at fee
0.001 from 5000 cash, and a concrete logged BUY step. -/
theorem ledger_long_only_alternation_w :
    0 ≤ (runLedger (1/1000) 1 5000 [(0, 10, some Side.buy), (1, 11, some Side.sell)]).position
    ∧ expectSides Side.buy
        (sides (runLedger (1/1000) 1 5000 [(0, 10, some Side.buy), (1, 11, some Side.sell)]))
        = true
    ∧ ((⟨0, Side.buy, 10, 5000 / (10 * (1 + 1/1000)), 1⟩ : Trade).side = Side.buy →
        (Ledger.reset 5000).position = 0) := by
  obtain ⟨a, b, c⟩ :=
    ledger_long_only_alternation (1/1000) 1 5000 [(0, 10, some Side.buy), (1, 11, some Side.sell)]
  refine ⟨a, b, ?_⟩
  refine (c (Ledger.reset 5000) 0 10 (some Side.buy)
    ⟨0, Side.buy, 10, 5000 / (10 * (1 + 1/1000)), 1⟩ ?_).1
  rw [stepExec_buy (1/1000) 1 0 10 rfl rfl (by norm_num [eps, Ledger.reset])]
  simp [Ledger.reset]

/-- Fidelity of the square-root-free Bollinger comparison: for a nonnegative
variance it decides exactly `price <= mid - dev*sqrt(var)` over the reals. -/
theorem bbLowerLe_eq_real (price m v dev : ℚ) (hv : 0 ≤ v) :
    bbLowerLe price (some m) (some v) dev = true ↔
      (price : ℝ) ≤ (m : ℝ) - (dev : ℝ) * Real.sqrt (v : ℝ) := by
  have hv' : (0 : ℝ) ≤ (v : ℝ) := by exact_mod_cast hv
  have hs0 : 0 ≤ Real.sqrt (v : ℝ) := Real.sqrt_nonneg _
  have hs2 : Real.sqrt (v : ℝ) ^ 2 = (v : ℝ) := Real.sq_sqrt hv'
  rw [bbLowerLe]
  by_cases hdev : (0 : ℚ) ≤ dev
  · have hdev' : (0 : ℝ) ≤ (dev : ℝ) := by exact_mod_cast hdev
    rw [if_pos hdev]
    simp only [Bool.and_eq_true, decide_eq_true_eq]
    constructor
    · rintro ⟨h1, h2⟩
      have h1' : (price : ℝ) ≤ (m : ℝ) := by exact_mod_cast h1
      have h2' : ((dev : ℝ)) ^ 2 * (v : ℝ) ≤ ((m : ℝ) - (price : ℝ)) ^ 2 := by
        exact_mod_cast h2
      nlinarith [sq_nonneg ((m : ℝ) - (price : ℝ) - (dev : ℝ) * Real.sqrt (v : ℝ)),
        mul_nonneg hdev' hs0]
    · intro h
      have h1 : (price : ℝ) ≤ (m : ℝ) := by nlinarith [mul_nonneg hdev' hs0]
      have h2 : ((dev : ℝ)) ^ 2 * (v : ℝ) ≤ ((m : ℝ) - (price : ℝ)) ^ 2 := by
        nlinarith [mul_nonneg hdev' hs0]
      exact ⟨by exact_mod_cast h1, by exact_mod_cast h2⟩
  · have hdev' : (dev : ℝ) < 0 := by
      have : dev < 0 := not_le.mp hdev
      exact_mod_cast this
    rw [if_neg hdev]
    simp only [Bool.or_eq_true, decide_eq_true_eq]
    constructor
    · rintro (h1 | h2)
      · have h1' : (price : ℝ) ≤ (m : ℝ) := by exact_mod_cast h1
        nlinarith [mul_nonneg (le_of_lt (neg_pos.mpr hdev')) hs0]
      · have h2' : ((m : ℝ) - (price : ℝ)) ^ 2 ≤ ((dev : ℝ)) ^ 2 * (v : ℝ) := by
          exact_mod_cast h2
        nlinarith [mul_nonneg (le_of_lt (neg_pos.mpr hdev')) hs0,
          sq_nonneg ((m : ℝ) - (price : ℝ) + (dev : ℝ) * Real.sqrt (v : ℝ))]
    · intro h
      by_cases h1 : price ≤ m
      · exact Or.inl h1
      · refine Or.inr ?_
        have h1' : (m : ℝ) < (price : ℝ) := by
          have : m < price := not_le.mp h1
          exact_mod_cast this
        have : ((m : ℝ) - (price : ℝ)) ^ 2 ≤ ((dev : ℝ)) ^ 2 * (v : ℝ) := by
          nlinarith [mul_nonneg (le_of_lt (neg_pos.mpr hdev')) hs0]
        exact_mod_cast this

/-! ### Grid search on an all-disqualified grid (claim C1) -/

/-- Once a best candidate is recorded, the grid-search loop never returns to
`None`. -/
theorem gridSearchGo_ne_none {P : Type} (runM : P → Option Metrics)
    (mt : ℕ) (cap : ℚ) :
    ∀ (l : List P) (x : P × Option Metrics) (bs : ℝ),
      gridSearchGo runM mt cap l (some x) bs ≠ none
  | [], _, _ => by simp [gridSearchGo]
  | p :: r, x, bs => by
    simp only [gridSearchGo]
    split
    · exact gridSearchGo_ne_none runM mt cap r _ _
    · exact gridSearchGo_ne_none runM mt cap r _ _

/-- From the initial state, the loop ends on `None` exactly when no candidate
scores strictly above the running `-1e9`. -/
theorem gridSearchGo_none_iff {P : Type} (runM : P → Option Metrics)
    (mt : ℕ) (cap : ℚ) :
    ∀ l : List P,
      (gridSearchGo runM mt cap l none sentinel = none ↔
        ∀ p ∈ l, score_metrics (runM p) mt cap ≤ sentinel)
  | [] => by simp [gridSearchGo]
  | p :: r => by
    simp only [gridSearchGo]
    split
    · rename_i hlt
      simp only [List.mem_cons]
      constructor
      · intro h
        exact absurd h (gridSearchGo_ne_none runM mt cap r _ _)
      · intro h
        exact absurd (h p (Or.inl rfl)) (not_le.mpr hlt)
    · rename_i hlt
      rw [gridSearchGo_none_iff runM mt cap r]
      simp only [List.mem_cons]
      constructor
      · intro h q hq
        rcases hq with hq | hq
        · subst hq
          exact not_lt.mp hlt
        · exact h q hq
      · intro h q hq
        exact h q (Or.inr hq)

/-- C1 (amended): `grid_search_one` returns a `(best_params, best_metrics)`
pair iff some candidate scores strictly above the `-1e9` sentinel; when every
candidate is disqualified (each scoring exactly the sentinel) the strict
`sc > best_score` never fires, `best_params` stays `None`, and the final
`assert` raises `AssertionError` instead of returning (modelled by `none`). -/
theorem grid_search_one_none_iff {P : Type} (grid : List P)
    (runM : P → Option Metrics) (min_trades : ℕ) (max_dd_cap : ℚ) :
    grid_search_one grid runM min_trades max_dd_cap = none ↔
      ∀ p ∈ grid, score_metrics (runM p) min_trades max_dd_cap ≤ sentinel :=
  gridSearchGo_none_iff runM min_trades max_dd_cap grid

/-- On the one-valid-bar series every Donchian candidate's backtest holds
throughout (the warm-up guard fires), leaving a fresh ledger with one equity
sample. -/
theorem donchian_onebar_run (p : DonchianParams) (fee : ℚ) :
    (runOne (StratParams.donchian p) fee dfOneBar).ledger =
      { position := 0, cash := 5000, trades := [], equity := [(0, 5000)] } := by
  have hg : ¬ (1 : ℕ) < 1 := lt_irrefl 1
  have hguard : (1 : ℕ) < max p.ch p.exit_ch + 2 := by omega
  simp [runOne, stepArgs, stepArgsGo, dfOneBar, mstepA, mstep, mkInst, initAux, decideAny,
    donchianDecide, hguard, stepExec, Ledger.reset, eps]

/-- Every Donchian grid candidate scores exactly the sentinel on the
one-valid-bar series (0 trades < min_trades 6). -/
theorem donchian_onebar_sentinel (p : DonchianParams) (fee : ℚ) :
    score_metrics ((runOne (StratParams.donchian p) fee dfOneBar).ledger.metrics 1)
      6 (1/4) = sentinel := by
  obtain ⟨m, hm, htr, -, -, -, -⟩ :=
    metrics_fields 1 (runOne (StratParams.donchian p) fee dfOneBar).ledger (0, 5000) []
      (by rw [donchian_onebar_run])
  rw [hm]
  have h0 : m.trades = 0 := by
    rw [htr, donchian_onebar_run]
    rfl
  simp [score_metrics, scoreVals, h0]

/-- Counterexample to C1 as stated: the Donchian grid is non-empty, yet on a
series where every candidate is disqualified `grid_search_one` does not
return a pair - the trailing assert fails (`none`). -/
theorem grid_search_all_disqualified_raises :
    donchianGrid ≠ [] ∧ grid_search_one_donchian dfOneBar (1/1000) 6 (1/4) = none := by
  constructor
  · simp [donchianGrid]
  · rw [grid_search_one_donchian, grid_search_one]
    rw [gridSearchGo_none_iff]
    intro p _
    rw [donchian_onebar_sentinel p (1/1000)]

/-! ### Runner views (claim C2) -/

/-- Lockstep is product: the interleaved multi-strategy loop equals advancing
each instance independently along the common view sequence — every strategy
sees exactly the same `(ts, px, cs, df_full)` arguments. -/
theorem runMultiGo_factor (df : List Bar) :
    ∀ (rest : List Bar) (closes : List ℚ) (strats : List MInst),
      runMultiGo df rest closes strats =
        strats.map fun s => (stepArgsGo df rest closes).foldl mstepA s
  | [], closes, strats => by
    simp [runMultiGo, stepArgsGo]
  | b :: r, closes, strats => by
    cases hb : b.close with
    | none =>
      simp only [runMultiGo, stepArgsGo, hb]
      exact runMultiGo_factor df r closes strats
    | some px =>
      simp only [runMultiGo, stepArgsGo, hb]
      rw [runMultiGo_factor df r (closes ++ [px]), List.map_map]
      simp [List.foldl_cons, mstepA, Function.comp]

/-- When every bar has a valid close, the views the runner builds are exactly
the spec's: all closes so far, and all bars up to and including the current
one. -/
theorem stepArgsGo_spec (df : List Bar) :
    ∀ (rest : List Bar) (k : ℕ) (closes : List ℚ),
      (∀ b ∈ rest, b.close.isSome) → df.drop k = rest →
      closes = (df.take k).filterMap Bar.close → closes.length = k →
      stepArgsGo df rest closes = specViewsGo df k rest
  | [], _, _, _, _, _, _ => rfl
  | b :: r, k, closes, hv, hdrop, hcl, hlen => by
    obtain ⟨px, hpx⟩ := Option.isSome_iff_exists.mp (hv b (List.mem_cons_self _ _))
    have hbk : df[k]? = some b := by
      rw [← List.head?_drop, hdrop]
      rfl
    have htake : df.take (k + 1) = df.take k ++ [b] := by
      rw [List.take_succ, hbk]
      rfl
    have hdrop' : df.drop (k + 1) = r := by
      have : df.drop (k + 1) = (df.drop k).drop 1 := by
        rw [List.drop_drop]
      rw [this, hdrop, List.drop_one]
      rfl
    have hcl' : closes ++ [px] = (df.take (k + 1)).filterMap Bar.close := by
      rw [htake, List.filterMap_append, ← hcl]
      simp [hpx]
    simp only [stepArgsGo, specViewsGo, hpx]
    rw [stepArgsGo_spec df r (k + 1) (closes ++ [px])
        (fun x hx => hv x (List.mem_cons_of_mem _ hx)) hdrop' hcl'
        (by simp [hlen])]
    have hlen' : (closes ++ [px]).length = k + 1 := by simp [hlen]
    rw [hlen', hcl']

/-- C2 (amended): on each valid bar every strategy instance is fed the same
two views before the runner advances; the close history is the sequence of
valid closes seen so far and the bar history is the first `len(closes)` bars
of the input.  These coincide with "exactly the bars up to and including the
current bar" when every bar's close is valid (with NaN closes present,
`df.iloc[:len(closes)]` is not the history up to the current bar). -/
theorem runner_common_views (df : List Bar) (specs : List (StratParams × ℚ)) :
    run_backtest_multi df specs =
      ((List.range specs.length).zip specs |>.map fun p => mkInst (p.1 + 1) p.2.1 p.2.2).map
        (fun s0 => (stepArgs df).foldl mstepA s0)
    ∧ ((∀ b ∈ df, b.close.isSome) → stepArgs df = specViews df) := by
  constructor
  · rw [run_backtest_multi, runMultiGo_factor]
    rfl
  · intro hv
    exact stepArgsGo_spec df df 0 [] hv rfl rfl rfl

/-- Witness for `runner_common_views`: a two-bar all-valid series. -/
theorem runner_common_views_w :
    (∀ b ∈ [(⟨0, 5, 4, some 2⟩ : Bar), ⟨1, 6, 4, some 3⟩], b.close.isSome)
    ∧ stepArgs [(⟨0, 5, 4, some 2⟩ : Bar), ⟨1, 6, 4, some 3⟩]
        = specViews [(⟨0, 5, 4, some 2⟩ : Bar), ⟨1, 6, 4, some 3⟩] :=
  ⟨by decide,
    (runner_common_views [(⟨0, 5, 4, some 2⟩ : Bar), ⟨1, 6, 4, some 3⟩] []).2 (by decide)⟩

/-- Counterexample to C2 as stated: on a series whose first bar has a NaN
close, the bar history passed on the valid second bar is the first bar alone
(`df.iloc[:1]`), not the bars up to and including the current bar — the
current bar itself is missing from the view. -/
theorem runner_views_counterexample :
    stepArgs dfNaN ≠ specViews dfNaN
    ∧ stepArgs dfNaN = [⟨1, 1, [1], [⟨0, 5, 4, none⟩]⟩]
    ∧ specViews dfNaN = [⟨1, 1, [1], [⟨0, 5, 4, none⟩, ⟨1, 5, 4, some 1⟩]⟩] := by
  refine ⟨?_, ?_, ?_⟩ <;> with_unfolding_all decide

/-! ### ATR warm-up and values (claim C3) -/

/-- The true-range series has one entry per bar. -/
theorem trueRangeGo_length : ∀ (l : List Bar) (pc : NQ), (trueRangeGo pc l).length = l.length
  | [], _ => rfl
  | _ :: r, _ => by simp [trueRangeGo, trueRangeGo_length r]

/-- Collecting an all-valid window succeeds with the underlying values. -/
theorem allSome_map_some : ∀ l : List ℚ, allSome (l.map some) = some l
  | [] => rfl
  | x :: r => by simp [allSome, allSome_map_some r]

/-- Entry `j+1` of the true-range series uses bar `j`'s close as previous
close. -/
theorem trueRangeGo_succ :
    ∀ (j : ℕ) (l : List Bar) (pc : NQ) (bprev b : Bar),
      l[j]? = some bprev → l[j + 1]? = some b →
      (trueRangeGo pc l)[j + 1]? = some (trCell b.high b.low bprev.close)
  | 0, [], _, _, _, h, _ => by simp at h
  | 0, [_], _, _, _, h0, h1 => by simp at h1
  | 0, x :: y :: r, pc, bprev, b, h0, h1 => by
    simp only [List.getElem?_cons_zero, Option.some_inj] at h0
    simp only [List.getElem?_cons_succ, List.getElem?_cons_zero, Option.some_inj] at h1
    subst h0
    subst h1
    simp [trueRangeGo]
  | j + 1, [], _, _, _, h, _ => by simp at h
  | j + 1, x :: r, pc, bprev, b, h0, h1 => by
    simp only [List.getElem?_cons_succ] at h0 h1
    simpa [trueRangeGo] using trueRangeGo_succ j r x.close bprev b h0 h1

/-- Counterexample to C3 as stated: with `n = 2`, the ATR of a two-bar series
already has a value at index 1 = n-1 (the first row's true range falls back
to `high - low`, so the rolling window is full after `n-1` steps, not `n`). -/
theorem atr_defined_before_n :
    atr barsATR 2 = [none, some (3/2)]
    ∧ ¬ (∀ i < 2, (atr barsATR 2)[i]? = some none) := by
  constructor <;> with_unfolding_all decide

/-- C3 (amended): ATR(bars, n) is undefined exactly for the first `n-1` bars
(not `n`), and from index `n-1` on equals the simple rolling mean over `n`
bars of the true range, where the true range of a bar with a valid previous
close is `max(high-low, |high-prev_close|, |low-prev_close|)` as claimed and
the first bar's true range falls back to `high-low`. -/
theorem atr_spec (bars : List Bar) (n : ℕ) (_hn : 1 ≤ n) :
    (∀ i, i < bars.length → ((atr bars n)[i]? = some none ↔ i + 1 < n))
    ∧ (∀ i, i < bars.length → n ≤ i + 1 →
        (atr bars n)[i]? =
          some (some ((((trueRange bars).drop (i + 1 - n)).take n).sum / n)))
    ∧ (∀ (j : ℕ) (b bprev : Bar) (pc : ℚ),
        bars[j]? = some bprev → bprev.close = some pc → bars[j + 1]? = some b →
        (trueRange bars)[j + 1]? =
          some (max (b.high - b.low) (max |b.high - pc| |b.low - pc|)))
    ∧ (∀ b : Bar, bars[0]? = some b → (trueRange bars)[0]? = some (b.high - b.low)) := by
  have hlen : ((trueRange bars).map some).length = bars.length := by
    simp [trueRange, trueRangeGo_length]
  have hcell : ∀ i, i < bars.length →
      (atr bars n)[i]? = some (if i + 1 < n then none
        else (allSome (windowAt n i ((trueRange bars).map some))).map
          fun w : List ℚ => w.sum / (n : ℚ)) := by
    intro i hi
    rw [atr, rollingMean, List.getElem?_map, hlen, List.getElem?_range hi]
    rfl
  have hwin : ∀ i, windowAt n i ((trueRange bars).map some)
      = (((trueRange bars).drop (i + 1 - n)).take n).map some := by
    intro i
    rw [windowAt, ← List.map_drop, ← List.map_take]
  refine ⟨?_, ?_, ?_, ?_⟩
  · intro i hi
    rw [hcell i hi]
    constructor
    · intro h
      by_contra hlt
      rw [if_neg hlt, hwin, allSome_map_some] at h
      simp at h
    · intro h
      rw [if_pos h]
  · intro i hi hni
    rw [hcell i hi, if_neg (by omega), hwin, allSome_map_some]
    rfl
  · intro j b bprev pc h0 hc h1
    rw [trueRange, trueRangeGo_succ j bars none bprev b h0 h1, hc]
    rfl
  · intro b h0
    cases bars with
    | nil => simp at h0
    | cons x r =>
      simp only [List.getElem?_cons_zero, Option.some_inj] at h0
      subst h0
      simp [trueRange, trueRangeGo, trCell]

/-- Witness for `atr_spec`: the two-bar series at `n = 2`, index 1. -/
theorem atr_spec_w :
    (1 : ℕ) ≤ 2 ∧ (1 < barsATR.length ∧ 2 ≤ 1 + 1)
    ∧ (atr barsATR 2)[1]? =
        some (some ((((trueRange barsATR).drop 0).take 2).sum / 2))
    ∧ (trueRange barsATR)[1]? =
        some (max ((3 : ℚ) - 1) (max |(3 : ℚ) - 3/2| |(1 : ℚ) - 3/2|)) := by
  refine ⟨by decide, ⟨by decide, by decide⟩, ?_, ?_⟩
  · exact (atr_spec barsATR 2 (by decide)).2.1 1 (by decide) (by decide)
  · exact (atr_spec barsATR 2 (by decide)).2.2.1 0 ⟨1, 3, 1, some 2⟩ ⟨0, 2, 1, some (3/2)⟩
      (3/2) rfl rfl rfl

/-! ### Donchian trailing stop (claim C4) -/

/-- Counterexample to C4 as stated: running Donchian (`ch=2, exit_ch=2,
atr_n=1, atr_mult=1`, fee 0.001) over `dfTrail`, the entry on bar 4 sets the
trailing stop to exactly 0.0; on the next bar, still in position, Python's
`self.trailing or -np.inf` treats the 0.0 as falsy, so the stop is recomputed
from `-inf` and falls to -3 < 0: over consecutive in-position bars the
trailing stop decreased. -/
theorem donchian_trailing_decreases :
    0 < (runOne (StratParams.donchian trailParams) (1/1000) (dfTrail.take 4)).ledger.position
    ∧ (runOne (StratParams.donchian trailParams) (1/1000) (dfTrail.take 4)).aux
        = StratAux.donchian (some (FV.val 0))
    ∧ 0 < (runOne (StratParams.donchian trailParams) (1/1000) dfTrail).ledger.position
    ∧ (runOne (StratParams.donchian trailParams) (1/1000) dfTrail).aux
        = StratAux.donchian (some (FV.val (-3)))
    ∧ ¬ ((0 : ℚ) ≤ -3) := by
  refine ⟨?_, ?_, ?_, ?_, ?_⟩ <;> with_unfolding_all decide

/-- C4 (amended): on an in-position bar the code updates the trailing stop to
`max(trailing or -inf, price - atr_mult*ATR)`; whenever the current trailing
value is a rational other than exactly 0, the updated trailing value (when
the position stays open) is at least the current one — the stop never falls.
From a trailing value of exactly 0.0 (or NaN) the Python truthiness fallback
can lower it, as `donchian_trailing_decreases` shows. -/
theorem donchian_trailing_monotone (p : DonchianParams) (pos price : ℚ)
    (dfFull : List Bar) (t : ℚ) (hpos : ¬ pos = 0) (ht : t ≠ 0) :
    ∀ q : ℚ, (donchianDecide p pos price dfFull (some (FV.val t))).1 = some (FV.val q) →
      t ≤ q := by
  intro q hq
  rw [donchianDecide] at hq
  by_cases hg : dfFull.length < max p.ch p.exit_ch + 2
  · rw [if_pos hg] at hq
    simp only [Option.some_inj, FV.val.injEq] at hq
    exact le_of_eq hq
  · rw [if_neg hg, if_neg hpos] at hq
    have hor : fvOr (some (FV.val t)) FV.ninf = FV.val t := by
      simp [fvOr, ht]
    simp only [hor] at hq
    split at hq
    · simp at hq
    · simp only [Option.some_inj] at hq
      rw [fvMax] at hq
      split at hq
      · rename_i hlt
        cases hc : donchCand price p.atr_mult (ilocLast (atr dfFull p.atr_n)) with
        | nan => rw [hc] at hq hlt; simp [fvLt] at hlt
        | ninf => rw [hc] at hq hlt; simp [fvLt] at hlt
        | val c =>
          rw [hc] at hq hlt
          simp only [FV.val.injEq] at hq
          subst hq
          exact le_of_lt (by simpa [fvLt] using hlt)
      · simp only [FV.val.injEq] at hq
        exact le_of_eq hq

/-- Witness for `donchian_trailing_monotone`: in position on the 4-bar prefix
of `dfTrail` with trailing 1, the update keeps the stop at 1. -/
theorem donchian_trailing_monotone_w :
    ¬ (1 : ℚ) = 0 ∧ ¬ (1 : ℚ) = 0
    ∧ (donchianDecide trailParams 1 10 (dfTrail.take 4) (some (FV.val 1))).1
        = some (FV.val 1)
    ∧ (1 : ℚ) ≤ 1 := by
  refine ⟨by norm_num, by norm_num, by with_unfolding_all decide, ?_⟩
  exact donchian_trailing_monotone trailParams 1 10 (dfTrail.take 4) 1
    (by norm_num) (by norm_num) 1 (by with_unfolding_all decide)

/-! ### Indicators over constant series (claim C7) -/

/-- An EMA continued from its own value over constant inputs stays constant. -/
theorem emaGo_replicate (alpha c : ℚ) :
    ∀ k : ℕ, emaGo alpha c (List.replicate k c) = List.replicate k c
  | 0 => rfl
  | k + 1 => by
    have hc : alpha * c + (1 - alpha) * c = c := by ring
    simp only [List.replicate_succ, emaGo, hc, emaGo_replicate alpha c k]

/-- The EMA of a constant series is that constant series. -/
theorem ema_replicate (span : ℕ) (m : ℕ) (c : ℚ) :
    ema span (List.replicate m c) = List.replicate m c := by
  cases m with
  | zero => rfl
  | succ k => simp only [List.replicate_succ, ema, emaGo_replicate]

/-- Both MACD outputs vanish on a constant series. -/
theorem macd_replicate (m fast slow signal : ℕ) (c : ℚ) :
    macd (List.replicate m c) fast slow signal
      = (List.replicate m 0, List.replicate m 0) := by
  have hline : List.zipWith (· - ·) (List.replicate m c) (List.replicate m c)
      = List.replicate m (0 : ℚ) := by
    induction m with
    | zero => rfl
    | succ k ih => simp only [List.replicate_succ, List.zipWith_cons_cons, ih, sub_self]
  rw [macd, ema_replicate, ema_replicate, hline, ema_replicate]

/-- Last element of a nonempty replicate. -/
theorem qLast_replicate (m : ℕ) (c : ℚ) (hm : 1 ≤ m) :
    qLast (List.replicate m c) = c := by
  cases m with
  | zero => omega
  | succ k =>
    rw [qLast, List.getLast?_replicate]
    simp

/-- A generic description of one `rolling(n).mean()` cell. -/
theorem rollingMean_getElem (n : ℕ) (xs : List NQ) (i : ℕ) (hi : i < xs.length) :
    (rollingMean n xs)[i]? = some (if i + 1 < n then none
      else (allSome (windowAt n i xs)).map fun w : List ℚ => w.sum / (n : ℚ)) := by
  rw [rollingMean, List.getElem?_map, List.getElem?_range hi]
  rfl

/-- A generic description of one `rolling(n).max()` cell. -/
theorem rollingMax_getElem (n : ℕ) (xs : List NQ) (i : ℕ) (hi : i < xs.length) :
    (rollingMax n xs)[i]? = some (if i + 1 < n then none
      else (allSome (windowAt n i xs)).bind listMaxQ) := by
  rw [rollingMax, List.getElem?_map, List.getElem?_range hi]
  rfl

/-- The window ending at the last position of a replicate is a full constant
window. -/
theorem windowAt_replicate_last (n m : ℕ) (x : NQ) (h1 : 1 ≤ n) (h2 : n ≤ m) :
    windowAt n (m - 1) (List.replicate m x) = List.replicate n x := by
  rw [windowAt, List.drop_replicate, List.take_replicate]
  congr 1
  omega

/-- The rolling mean over a full constant window is the constant. -/
theorem rollingMean_replicate_last (n m : ℕ) (c : ℚ) (h1 : 1 ≤ n) (h2 : n ≤ m) :
    ilocLast (rollingMean n (List.replicate m (some c))) = some c := by
  have hlen : (rollingMean n (List.replicate m (some c))).length = m := by
    simp [rollingMean]
  have hm : 1 ≤ m := le_trans h1 h2
  rw [ilocLast, List.getLast?_eq_getElem?, hlen,
    rollingMean_getElem n _ (m - 1) (by simp; omega)]
  rw [if_neg (by omega), windowAt_replicate_last n m _ h1 h2]
  rw [show List.replicate n (some c) = (List.replicate n c).map some from by simp,
    allSome_map_some]
  have hsum : (List.replicate n c).sum = (n : ℚ) * c := by
    simp [List.sum_replicate, nsmul_eq_mul]
  have hn : (n : ℚ) ≠ 0 := by
    have h0 : 0 < n := h1
    exact_mod_cast h0.ne'
  simp [hsum, mul_div_cancel_left₀, hn]

/-- A full constant window at any position of a replicate. -/
theorem windowAt_replicate (n i m : ℕ) (x : NQ) (_h1 : 1 ≤ n) (h2 : n ≤ i + 1)
    (h3 : i < m) : windowAt n i (List.replicate m x) = List.replicate n x := by
  rw [windowAt, List.drop_replicate, List.take_replicate]
  congr 1
  omega

/-- `.iloc[-2]` as an index access, for lists of length at least 2. -/
theorem ilocPrev_eq (l : List NQ) (h : 2 ≤ l.length) :
    ilocPrev l = (l[l.length - 2]?).getD none := by
  rw [ilocPrev, List.getLast?_eq_getElem?, List.length_dropLast,
    List.getElem?_dropLast, if_pos (by omega)]
  congr 2

/-- The maximum of a constant window. -/
theorem listMaxQ_replicate (n : ℕ) (c : ℚ) (h1 : 1 ≤ n) :
    listMaxQ (List.replicate n c) = some c := by
  cases n with
  | zero => omega
  | succ k =>
    rw [List.replicate_succ, listMaxQ]
    congr 1
    induction k with
    | zero => rfl
    | succ j ih => simpa [List.replicate_succ, max_self] using ih

/-- The second-to-last cell of `rolling(n).max()` over a constant series. -/
theorem rollingMax_replicate_prev (n m : ℕ) (c : ℚ) (h1 : 1 ≤ n) (h2 : n + 1 ≤ m) :
    ilocPrev (rollingMax n (List.replicate m (some c))) = some c := by
  have hlen : (rollingMax n (List.replicate m (some c))).length = m := by
    simp [rollingMax]
  rw [ilocPrev_eq _ (by omega), hlen,
    rollingMax_getElem n _ (m - 2) (by simp; omega), if_neg (by omega),
    windowAt_replicate n (m - 2) m _ h1 (by omega) (by omega)]
  rw [show List.replicate n (some c) = (List.replicate n c).map some from by simp,
    allSome_map_some]
  simp [listMaxQ_replicate n c h1]

/-- The last cell of a constant Series (`.iloc[-1]`). -/
theorem ilocLast_replicate (m : ℕ) (x : NQ) (h : 1 ≤ m) :
    ilocLast (List.replicate m x) = x := by
  cases m with
  | zero => omega
  | succ k =>
    rw [ilocLast, List.getLast?_replicate]
    rfl

/-- `diff` of a constant series: NaN then zeros. -/
theorem diffL_replicate (m : ℕ) (c : ℚ) (hm : 1 ≤ m) :
    diffL (List.replicate m c) = none :: List.replicate (m - 1) (some 0) := by
  have haux : ∀ k : ℕ, List.zipWith (fun b a => some (b - a))
      (List.replicate k c) (List.replicate (k + 1) c)
      = List.replicate k (some (0 : ℚ)) := by
    intro k
    induction k with
    | zero => rfl
    | succ j ih =>
      rw [List.replicate_succ, show List.replicate (j + 1 + 1) c
          = c :: List.replicate (j + 1) c from rfl, List.zipWith_cons_cons, ih,
        sub_self, List.replicate_succ]
  cases m with
  | zero => omega
  | succ k =>
    rw [show List.replicate (k + 1) c = c :: List.replicate k c from rfl, diffL]
    rw [show c :: List.replicate k c = List.replicate (k + 1) c from rfl, haux]
    rfl

/-- Element access through `zipWith`. -/
theorem zipWith_getElem? {α β γ : Type} (f : α → β → γ) :
    ∀ (l1 : List α) (l2 : List β) (i : ℕ),
      (List.zipWith f l1 l2)[i]? =
        match l1[i]?, l2[i]? with
        | some a, some b => some (f a b)
        | _, _ => none
  | [], l2, i => by cases l2 <;> simp
  | a :: t1, [], i => by simp
  | a :: t1, b :: t2, 0 => by simp
  | a :: t1, b :: t2, i + 1 => by
    simpa using zipWith_getElem? f t1 t2 i

/-- The last RSI value over a constant series is NaN (0/0 gains over losses). -/
theorem rsi_replicate_last (m n : ℕ) (c : ℚ) (h1 : 1 ≤ n) (h2 : n + 2 ≤ m) :
    ilocLast (rsi (List.replicate m c) n) = none := by
  have hdelta : diffL (List.replicate m c) = none :: List.replicate (m - 1) (some 0) :=
    diffL_replicate m c (by omega)
  have hclip : ∀ g : ℚ → ℚ, g 0 = 0 →
      (none :: List.replicate (m - 1) (some (0 : ℚ))).map (Option.map g)
        = none :: List.replicate (m - 1) (some 0) := by
    intro g hg
    simp [List.map_replicate, hg]
  have hwin : windowAt n (m - 1) (none :: List.replicate (m - 1) (some (0 : ℚ)))
      = List.replicate n (some 0) := by
    rw [windowAt, show m - 1 + 1 - n = (m - n - 1) + 1 from by omega, List.drop_succ_cons,
      List.drop_replicate, List.take_replicate]
    congr 1
    omega
  have hcell : ∀ xs : List NQ, xs = none :: List.replicate (m - 1) (some 0) →
      (rollingMean n xs)[m - 1]? = some (some 0) := by
    intro xs hxs
    rw [hxs, rollingMean_getElem n _ (m - 1)
      (by simp only [List.length_cons, List.length_replicate]; omega), if_neg (by omega), hwin]
    rw [show List.replicate n (some (0 : ℚ)) = (List.replicate n (0 : ℚ)).map some from by simp,
      allSome_map_some]
    simp
  have hlen : (rsi (List.replicate m c) n).length = m := by
    rw [rsi, hdelta]
    simp only [List.length_zipWith, rollingMean, List.length_map, List.length_range,
      List.map_cons, List.length_cons, List.length_replicate]
    omega
  rw [ilocLast, List.getLast?_eq_getElem?, hlen]
  rw [rsi, hdelta, zipWith_getElem?]
  rw [hcell _ (hclip _ (by norm_num)), hcell _ (hclip _ (by norm_num))]
  simp [rsiCell]

/-- A map that is constant on its list yields a replicate. -/
theorem map_const_replicate {α β : Type} (f : α → β) (c : β) :
    ∀ l : List α, (∀ b ∈ l, f b = c) → l.map f = List.replicate l.length c
  | [], _ => rfl
  | x :: r, h => by
    rw [List.map_cons, List.length_cons, List.replicate_succ,
      h x (List.mem_cons_self _ _), map_const_replicate f c r
        fun b hb => h b (List.mem_cons_of_mem _ hb)]

/-- MACD+RSI holds while flat on a constant close history (the MACD histogram
never flips sign). -/
theorem macdrsiDecide_const (p : MACDRSIParams) (m : ℕ) :
    macdrsiDecide p 0 100 (List.replicate m 100) none = (none, none) := by
  simp only [macdrsiDecide, macd_replicate, List.length_replicate]
  by_cases hm : m < 3
  · rw [if_pos hm]
  · rw [if_neg hm, if_neg (lt_irrefl (0 : ℚ)), if_neg]
    intro hcond
    have hlast : qLast (List.replicate m (0 : ℚ)) = 0 := qLast_replicate m 0 (by omega)
    have hlt := hcond.1.1
    rw [hlast, sub_self] at hlt
    exact lt_irrefl 0 hlt

/-- SMA Cross holds while flat on a constant close history (the SMA spread is
zero, never positive). -/
theorem smacrossDecide_const (p : SMACrossParams) (m : ℕ)
    (hf : 1 ≤ p.fast) (hs : 1 ≤ p.slow) :
    smacrossDecide p 0 100 (List.replicate m 100) none = (none, none) := by
  simp only [smacrossDecide, List.length_replicate]
  by_cases hm : m < max p.fast p.slow + 2
  · rw [if_pos hm]
  · rw [if_neg hm, if_neg (lt_irrefl (0 : ℚ)), if_neg]
    intro hcond
    have h1 : ilocLast (sma p.fast (List.replicate m 100)) = some 100 := by
      rw [sma, List.map_replicate]
      exact rollingMean_replicate_last _ _ _ hf (by omega)
    have h2 : ilocLast (sma p.slow (List.replicate m 100)) = some 100 := by
      rw [sma, List.map_replicate]
      exact rollingMean_replicate_last _ _ _ hs (by omega)
    have hlt := hcond.1
    rw [h1, h2] at hlt
    simp [nqSub, nqLt] at hlt

/-- Donchian holds while flat on a constant bar history (the close never
strictly exceeds the channel high). -/
theorem donchianDecide_const (p : DonchianParams) (dfFull : List Bar) (m : ℕ)
    (hch : 1 ≤ p.ch)
    (hconst : ∀ b ∈ dfFull, b.high = 100 ∧ b.low = 100 ∧ b.close = some 100)
    (hlen : dfFull.length = m) :
    donchianDecide p 0 100 dfFull none = (none, none) := by
  simp only [donchianDecide, hlen]
  by_cases hm : m < max p.ch p.exit_ch + 2
  · rw [if_pos hm]
  · rw [if_neg hm, if_true, if_neg]
    intro hcond
    have hhigh : dfFull.map (fun b => some b.high) = List.replicate m (some (100 : ℚ)) := by
      rw [map_const_replicate (fun b => some b.high) (some 100) dfFull
        (fun b hb => by simp [(hconst b hb).1]), hlen]
    have hclose : dfFull.map Bar.close = List.replicate m (some (100 : ℚ)) := by
      rw [map_const_replicate Bar.close (some 100) dfFull
        (fun b hb => (hconst b hb).2.2), hlen]
    rw [hhigh, hclose, rollingMax_replicate_prev p.ch m 100 hch (by omega),
      ilocLast_replicate m _ (by omega)] at hcond
    simp [nqLt] at hcond

/-- Bollinger Reversion holds while flat on a constant close history (RSI is
NaN, so the RSI filter fails). -/
theorem bollingerDecide_const (p : BollingerParams) (dfFull : List Bar) (m : ℕ)
    (_hbb : 1 ≤ p.bb_period) (hrsi : 1 ≤ p.rsi_period) :
    bollingerDecide p 0 100 (List.replicate m 100) dfFull none = (none, none) := by
  simp only [bollingerDecide, List.length_replicate]
  by_cases hm : m < max p.bb_period (max p.rsi_period p.atr_n) + 2
  · rw [if_pos hm]
  · rw [if_neg hm, if_neg (lt_irrefl (0 : ℚ)), if_neg]
    intro hcond
    have hr : ilocLast (rsi (List.replicate m (100 : ℚ)) p.rsi_period) = none :=
      rsi_replicate_last m p.rsi_period 100 hrsi (by omega)
    have hc2 := hcond.2
    rw [hr] at hc2
    simp [nqLe] at hc2

/-- `_decide` dispatch holds and keeps its auxiliary state on a constant view
while flat, for any well-formed parameters. -/
theorem decideAny_const (params : StratParams) (hok : paramsOK params) (k : ℕ)
    (dfFull : List Bar)
    (hbars : ∀ b ∈ dfFull, b.high = 100 ∧ b.low = 100 ∧ b.close = some 100)
    (hlen : dfFull.length = k + 1) :
    decideAny params 0 100 (List.replicate (k + 1) 100) dfFull (initAux params)
      = (initAux params, none) := by
  cases params with
  | macdrsi p => simp [decideAny, initAux, macdrsiDecide_const]
  | smacross p => simp [decideAny, initAux, smacrossDecide_const p _ hok.1 hok.2]
  | donchian p =>
    simp [decideAny, initAux, donchianDecide_const p dfFull (k + 1) hok hbars hlen]
  | bollinger p =>
    simp [decideAny, initAux, bollingerDecide_const p dfFull (k + 1) hok.1 hok.2]

/-- One flat step on a constant view just appends a 5000 equity sample. -/
theorem mstepA_const (i : MInst) (a : StepArgs) (hok : paramsOK i.params)
    (hv : ConstView a) (haux : i.aux = initAux i.params)
    (hpos : i.ledger.position = 0) (hcash : i.ledger.cash = 5000) :
    mstepA i a = { i with ledger :=
      { i.ledger with equity := i.ledger.equity ++ [(a.ts, 5000)] } } := by
  obtain ⟨hpx, k, hcs, hbars, hlen⟩ := hv
  rw [mstepA, mstep, hpos, hpx, hcs, haux,
    decideAny_const i.params hok k a.dfFull hbars hlen]
  rw [stepExec_skip i.fee i.sid a.ts 100 (by simp) (by simp), hcash, hpos]
  rw [show (5000 : ℚ) + 0 * 100 = 5000 from by norm_num]
  simp [hpos, hcash]

/-- Folding flat steps over constant views leaves the ledger untouched except
for one 5000 equity sample per view. -/
theorem foldl_mstepA_const :
    ∀ (views : List StepArgs) (i : MInst), paramsOK i.params →
      (∀ a ∈ views, ConstView a) → i.aux = initAux i.params →
      i.ledger.position = 0 → i.ledger.cash = 5000 → i.ledger.trades = [] →
      ∃ E : List (ℕ × ℚ),
        views.foldl mstepA i
          = { i with ledger := { i.ledger with equity := i.ledger.equity ++ E } }
        ∧ E.length = views.length ∧ ∀ e ∈ E, e.2 = 5000
  | [], i, _, _, _, _, _, _ => by
    refine ⟨[], ?_, rfl, by simp⟩
    cases i with
    | mk sid params fee ledger aux => cases ledger; simp
  | a :: rest, i, hok, hviews, haux, hpos, hcash, htr => by
    have h1 := mstepA_const i a hok (hviews a (List.mem_cons_self _ _)) haux hpos hcash
    rw [List.foldl_cons, h1]
    obtain ⟨E, hE, hElen, hEval⟩ :=
      foldl_mstepA_const rest
        { i with ledger := { i.ledger with equity := i.ledger.equity ++ [(a.ts, 5000)] } }
        hok (fun x hx => hviews x (List.mem_cons_of_mem _ hx)) haux hpos hcash htr
    refine ⟨(a.ts, 5000) :: E, ?_, by simp [hElen], ?_⟩
    · rw [hE]
      simp
    · intro e he
      rcases List.mem_cons.mp he with he | he
      · rw [he]
      · exact hEval e he

/-- Every view the runner builds over a constant-100 series is a constant
view. -/
theorem stepArgs_const (df : List Bar)
    (hconst : ∀ b ∈ df, b.high = 100 ∧ b.low = 100 ∧ b.close = some 100) :
    ∀ (rest : List Bar) (k : ℕ) (closes : List ℚ),
      rest = df.drop k → closes = List.replicate k 100 →
      ∀ a ∈ stepArgsGo df rest closes, ConstView a
  | [], _, _, _, _ => by simp [stepArgsGo]
  | b :: r, k, closes, hdrop, hcl => by
    have hbmem : b ∈ df := by
      have : b ∈ df.drop k := by rw [← hdrop]; exact List.mem_cons_self _ _
      exact List.mem_of_mem_drop this
    obtain ⟨hh, hl, hc⟩ := hconst b hbmem
    have hkdf : k + 1 ≤ df.length := by
      have := congrArg List.length hdrop
      rw [List.length_drop] at this
      simp only [List.length_cons] at this
      omega
    have hdrop' : r = df.drop (k + 1) := by
      have : df.drop (k + 1) = (df.drop k).drop 1 := by rw [List.drop_drop]
      rw [this, ← hdrop, List.drop_one]
      rfl
    have hcl' : closes ++ [(100 : ℚ)] = List.replicate (k + 1) 100 := by
      rw [hcl, ← List.replicate_succ']
    intro a ha
    simp only [stepArgsGo, hc] at ha
    rcases List.mem_cons.mp ha with ha | ha
    · subst ha
      refine ⟨rfl, k, ?_, ?_, ?_⟩
      · simpa using hcl'
      · intro x hx
        exact hconst x (List.take_subset _ _ hx)
      · simp only [List.length_take, hcl', List.length_replicate]
        omega
    · exact stepArgs_const df hconst r (k + 1) (closes ++ [100]) hdrop' hcl' a ha

/-- Over an all-valid suffix the runner emits one view per bar. -/
theorem stepArgsGo_length (df : List Bar) :
    ∀ (rest : List Bar) (closes : List ℚ), (∀ b ∈ rest, b.close.isSome) →
      (stepArgsGo df rest closes).length = rest.length
  | [], _, _ => rfl
  | b :: r, closes, hv => by
    obtain ⟨px, hpx⟩ := Option.isSome_iff_exists.mp (hv b (List.mem_cons_self _ _))
    simp only [stepArgsGo, hpx, List.length_cons,
      stepArgsGo_length df r _ fun x hx => hv x (List.mem_cons_of_mem _ hx)]

/-- A nonempty all-5000 equity series yields 0 trades and final equity 5000
from `metrics()`. -/
theorem metrics_trades_final (sid : ℕ) (L : Ledger) (e0 : ℕ × ℚ)
    (rest : List (ℕ × ℚ)) (heq : L.equity = e0 :: rest) (htr : L.trades = [])
    (hval : ∀ e ∈ L.equity, e.2 = 5000) :
    (L.metrics sid).map (fun m => (m.trades, m.final_equity)) = some (0, 5000) := by
  obtain ⟨m, hm, htr', hfe, -, -, -⟩ := metrics_fields sid L e0 rest heq
  rw [hm, Option.map_some']
  have h1 : m.trades = 0 := by rw [htr', htr]; rfl
  have h2 : m.final_equity = 5000 := by
    rw [hfe]
    have hmem := List.getLast_mem (l := e0.2 :: rest.map Prod.snd) (List.cons_ne_nil _ _)
    rcases List.mem_cons.mp hmem with hx | hx
    · rw [hx]
      exact hval e0 (heq ▸ List.mem_cons_self _ _)
    · obtain ⟨e, he, hex⟩ := List.mem_map.mp hx
      rw [← hex]
      exact hval e (heq ▸ List.mem_cons_of_mem _ he)
  rw [h1, h2]

/-- C7: over 100 bars at the constant price 100 with start cash 5000, each of
the four strategies (MACD+RSI, SMA Cross, Donchian Breakout, Bollinger
Reversion) at default parameters reports 0 trades and final equity 5000: no
strategy ever enters a position on a strictly constant price series. -/
theorem constant_series_no_trades :
    (run_backtest_multi df100 specs4).map
        (fun i => (i.ledger.metrics i.sid).map fun m => (m.trades, m.final_equity))
      = [some (0, 5000), some (0, 5000), some (0, 5000), some (0, 5000)] := by
  have hconst : ∀ b ∈ df100, b.high = 100 ∧ b.low = 100 ∧ b.close = some 100 := by
    intro b hb
    simp only [df100, List.mem_map] at hb
    obtain ⟨i, -, rfl⟩ := hb
    exact ⟨rfl, rfl, rfl⟩
  have hviews : ∀ a ∈ stepArgs df100, ConstView a :=
    stepArgs_const df100 hconst df100 0 [] rfl rfl
  have hvlen : (stepArgs df100).length = 100 := by
    rw [stepArgs, stepArgsGo_length df100 df100 []
      fun b hb => by rw [(hconst b hb).2.2]; rfl]
    simp [df100]
  have hone : ∀ (sid : ℕ) (params : StratParams) (fee : ℚ), paramsOK params →
      ((((stepArgsGo df100 df100 []).foldl mstepA (mkInst sid params fee)).ledger.metrics
          ((stepArgsGo df100 df100 []).foldl mstepA (mkInst sid params fee)).sid).map
        fun m => (m.trades, m.final_equity)) = some (0, 5000) := by
    intro sid params fee hok
    obtain ⟨E, hE, hElen, hEval⟩ :=
      foldl_mstepA_const (stepArgsGo df100 df100 []) (mkInst sid params fee) hok hviews
        rfl rfl rfl rfl
    rw [hE]
    cases E with
    | nil =>
      rw [show stepArgsGo df100 df100 [] = stepArgs df100 from rfl, hvlen] at hElen
      simp at hElen
    | cons e0 erest =>
      exact metrics_trades_final sid _ e0 erest (by simp [mkInst, Ledger.reset]) rfl
        fun e he => hEval e (by simpa [mkInst, Ledger.reset] using he)
  rw [run_backtest_multi, runMultiGo_factor]
  have henum : (((List.range specs4.length).zip specs4).map
        fun p => mkInst (p.1 + 1) p.2.1 p.2.2)
      = [mkInst 1 (StratParams.macdrsi macdrsiDefault) (1/1000),
         mkInst 2 (StratParams.smacross smacrossDefault) (1/1000),
         mkInst 3 (StratParams.donchian donchianDefault) (1/1000),
         mkInst 4 (StratParams.bollinger bollingerDefault) (1/1000)] := by
    with_unfolding_all rfl
  rw [henum]
  simp only [List.map_cons, List.map_nil]
  rw [hone 1 (StratParams.macdrsi macdrsiDefault) (1/1000) trivial,
    hone 2 (StratParams.smacross smacrossDefault) (1/1000)
      ⟨by norm_num [smacrossDefault], by norm_num [smacrossDefault]⟩,
    hone 3 (StratParams.donchian donchianDefault) (1/1000)
      (by norm_num [donchianDefault, paramsOK]),
    hone 4 (StratParams.bollinger bollingerDefault) (1/1000)
      ⟨by norm_num [bollingerDefault], by norm_num [bollingerDefault]⟩]

end TradingBot
